import Mathlib

/-!
Verification of the rusty-man extraction engine against its specification.

The Rust sources are shallowly embedded: Rust `String` values become `List Char`
(written `Str` below), struct fields keep their names, fallible operations
return `Option` or `Except`, and panics are modelled as `Option.none` (or as an
`Except.error`) of the surrounding computation.
-/

/-- Rust strings are embedded as lists of characters. -/
abbrev Str := List Char

/-- The `::` separator used by dotted names (`doc.rs` uses the literal `"::"`). -/
def sepStr : Str := [':', ':']

/-- `haystack.contains_sub needle`: does `needle` occur as a contiguous
subsequence (Rust `str::find` finds the first such occurrence)? -/
def containsSub (haystack needle : Str) : Bool :=
  match haystack with
  | [] => needle.isEmpty
  | _ :: t => needle.isPrefixOf haystack || containsSub t needle

/-- Index of the first occurrence of `needle` in `haystack`
(Rust `str::find`). -/
def findSub (haystack needle : Str) : Option Nat :=
  match haystack with
  | [] => if needle.isEmpty then some 0 else none
  | _ :: t =>
    if needle.isPrefixOf haystack then some 0
    else (findSub t needle).map (· + 1)

/-- Index of the last occurrence of `needle` in `haystack`
(Rust `str::rfind`). -/
def rfindSub (haystack needle : Str) : Option Nat :=
  match haystack with
  | [] => if needle.isEmpty then some 0 else none
  | _ :: t =>
    match rfindSub t needle with
    | some i => some (i + 1)
    | none => if needle.isPrefixOf haystack then some 0 else none

/-- `doc.rs`: `struct Name { s: String, first_end: usize, last_start: usize }`. -/
structure Name where
  s : Str
  first_end : Nat
  last_start : Nat
deriving DecidableEq, Repr

/-- `doc.rs`: `impl From<String> for Name` — computes the two derived offsets
(`s.find("::")` and `s.rfind("::").map(|i| i + 2)`). -/
def Name.fromStr (s : Str) : Name :=
  { s := s
    first_end := (findSub s sepStr).getD s.length
    last_start := ((rfindSub s sepStr).map (· + 2)).getD 0 }

/-- `doc.rs`: `Name::is_singleton`. -/
def Name.is_singleton (n : Name) : Bool := n.last_start == 0

/-- `doc.rs`: `Name::first` — `&self.s[..self.first_end]`. -/
def Name.first (n : Name) : Str := n.s.take n.first_end

/-- `doc.rs`: `Name::last` — `&self.s[self.last_start..]`. -/
def Name.last (n : Name) : Str := n.s.drop n.last_start

/-- `doc.rs`: `Name::full`. -/
def Name.full (n : Name) : Str := n.s

/-- `doc.rs`: `Name::rest` — `&self.s[self.first_end + 2..]` unless singleton. -/
def Name.rest (n : Name) : Option Str :=
  if n.is_singleton then none else some (n.s.drop (n.first_end + 2))

/-- `doc.rs`: `Name::parent` — `&self.s[..self.last_start - 2]`, re-parsed. -/
def Name.parent (n : Name) : Option Name :=
  if n.is_singleton then none else some (Name.fromStr (n.s.take (n.last_start - 2)))

/-- `doc.rs`: `Name::child` — appends `"::"` and the new segment, re-parsed. -/
def Name.child (n : Name) (s : Str) : Name :=
  Name.fromStr (n.s ++ sepStr ++ s)

/-- `doc.rs`: `Name::ends_with` —
`self.s == name.s || self.s.ends_with(&format!("::{}", name.s))`. -/
def Name.ends_with (a b : Name) : Bool :=
  a.s == b.s || (sepStr ++ b.s).isSuffixOf a.s

/-- `"rand::error::Error"` and friends, for concrete checks. -/
def nameOf (s : String) : Name := Name.fromStr s.toList

theorem isSuffixOf_iff_exists {l₁ l₂ : Str} :
    l₁.isSuffixOf l₂ = true ↔ ∃ p, l₂ = p ++ l₁ := by
  rw [List.isSuffixOf_iff_suffix]
  constructor
  · rintro ⟨p, hp⟩; exact ⟨p, hp.symm⟩
  · rintro ⟨p, hp⟩; exact ⟨p, hp.symm⟩

/-- **C7.** `Name::ends_with` returns true exactly when the two underlying
strings are equal or the right-hand string is a dotted suffix of the left-hand
one starting right after a `"::"` separator (i.e. on a segment boundary); in
particular it never performs a raw substring-suffix match.  The conjunction
also records the three concrete cases named by the specification:
`"rand::error::Error".ends_with("Error")` holds while
`"rand::erroreous".ends_with("error")` and `"foobar".ends_with("bar")` fail. -/
theorem ends_with_segment_boundary :
    (∀ a b : Str,
      (Name.fromStr a).ends_with (Name.fromStr b) = true ↔
        (a = b ∨ ∃ p, a = p ++ sepStr ++ b)) ∧
    (nameOf "rand::error::Error").ends_with (nameOf "Error") = true ∧
    (nameOf "rand::erroreous").ends_with (nameOf "error") = false ∧
    (nameOf "foobar").ends_with (nameOf "bar") = false := by
  refine ⟨fun a b => ?_, by decide, by decide, by decide⟩
  unfold Name.ends_with Name.fromStr
  simp only [Bool.or_eq_true, beq_iff_eq, isSuffixOf_iff_exists]
  constructor
  · rintro (h | ⟨p, hp⟩)
    · exact Or.inl h
    · exact Or.inr ⟨p, by simpa [List.append_assoc] using hp⟩
  · rintro (h | ⟨p, hp⟩)
    · exact Or.inl h
    · exact Or.inr ⟨p, by simpa [List.append_assoc] using hp⟩

/-- `doc.rs`: the closed `ItemType` enumeration (`#[repr(u8)]`, values 0–25). -/
inductive ItemType where
  | Module | ExternCrate | Import | Struct | Enum | Function | Typedef
  | Static | Trait | Impl | TyMethod | Method | StructField | Variant
  | Macro | Primitive | AssocType | Constant | AssocConst | Union
  | ForeignType | Keyword | OpaqueTy | ProcAttribute | ProcDerive | TraitAlias
deriving DecidableEq, Repr

/-- The `u8` discriminant of each `ItemType` variant (`doc.rs`, `#[repr(u8)]`). -/
def ItemType.code : ItemType → Nat
  | .Module => 0 | .ExternCrate => 1 | .Import => 2 | .Struct => 3
  | .Enum => 4 | .Function => 5 | .Typedef => 6 | .Static => 7
  | .Trait => 8 | .Impl => 9 | .TyMethod => 10 | .Method => 11
  | .StructField => 12 | .Variant => 13 | .Macro => 14 | .Primitive => 15
  | .AssocType => 16 | .Constant => 17 | .AssocConst => 18 | .Union => 19
  | .ForeignType => 20 | .Keyword => 21 | .OpaqueTy => 22
  | .ProcAttribute => 23 | .ProcDerive => 24 | .TraitAlias => 25

/-- Decoding a numeric discriminant (`serde_repr::Deserialize_repr` on
`ItemType` accepts exactly the declared values 0–25). -/
def ItemType.ofCode (n : Nat) : Option ItemType :=
  [ItemType.Module, .ExternCrate, .Import, .Struct, .Enum, .Function, .Typedef,
   .Static, .Trait, .Impl, .TyMethod, .Method, .StructField, .Variant, .Macro,
   .Primitive, .AssocType, .Constant, .AssocConst, .Union, .ForeignType,
   .Keyword, .OpaqueTy, .ProcAttribute, .ProcDerive, .TraitAlias].get? n

/-- `doc.rs`: `impl FromStr for ItemType` — the short token used in file names
and element ids, e.g. `"mod"`, `"fn"`, `"structfield"`. -/
def ItemType.from_str (s : Str) : Except Str ItemType :=
  if s = "mod".toList then .ok .Module
  else if s = "externcrate".toList then .ok .ExternCrate
  else if s = "import".toList then .ok .Import
  else if s = "struct".toList then .ok .Struct
  else if s = "union".toList then .ok .Union
  else if s = "enum".toList then .ok .Enum
  else if s = "fn".toList then .ok .Function
  else if s = "type".toList then .ok .Typedef
  else if s = "static".toList then .ok .Static
  else if s = "trait".toList then .ok .Trait
  else if s = "impl".toList then .ok .Impl
  else if s = "tymethod".toList then .ok .TyMethod
  else if s = "method".toList then .ok .Method
  else if s = "structfield".toList then .ok .StructField
  else if s = "variant".toList then .ok .Variant
  else if s = "macro".toList then .ok .Macro
  else if s = "primitive".toList then .ok .Primitive
  else if s = "associatedtype".toList then .ok .AssocType
  else if s = "constant".toList then .ok .Constant
  else if s = "associatedconstant".toList then .ok .AssocConst
  else if s = "foreigntype".toList then .ok .ForeignType
  else if s = "keyword".toList then .ok .Keyword
  else if s = "opaque".toList then .ok .OpaqueTy
  else if s = "attr".toList then .ok .ProcAttribute
  else if s = "derive".toList then .ok .ProcDerive
  else if s = "traitalias".toList then .ok .TraitAlias
  else .error ("Unsupported item type: ".toList ++ s)

/-- Split at the first occurrence of `c` (Rust `str::splitn(2, c)`): the part
before it and, when `c` occurs, the part after it. -/
def splitFirstOn (c : Char) : Str → Str × Option Str
  | [] => ([], none)
  | h :: t =>
    if h = c then ([], some t)
    else
      let (pre, post) := splitFirstOn c t
      (h :: pre, post)

/-- Split at every occurrence of `c` (Rust `str::split(c)`); empty pieces are
kept, as in Rust. -/
def splitAll (c : Char) : Str → List Str
  | [] => [[]]
  | h :: t =>
    if h = c then [] :: splitAll c t
    else
      match splitAll c t with
      | [] => [[h]]
      | p :: ps => (h :: p) :: ps

/-- `viewer/tui/mod.rs`: `parse_url_part` — optionally strip a required
suffix, then split on `'.'` and demand exactly two parts. -/
def parse_url_part (s : Str) (suffix : Option Str) : Option (Str × Str) :=
  match suffix with
  | some suf =>
    if suf.isSuffixOf s then parse_url_part_inner (s.take (s.length - suf.length))
    else none
  | none => parse_url_part_inner s
where
  parse_url_part_inner (s : Str) : Option (Str × Str) :=
    match splitAll '.' s with
    | [a, b] => some (a, b)
    | _ => none

/-- One step of the part loop in `viewer/tui/mod.rs`: `resolve_doc_link` —
`".."` moves to the parent (clearing the type, failing above the root),
`"index.html"` is a no-op, a `type.name.html` token sets the type and appends
a child segment, and anything else is a child module segment. -/
def resolvePart (st : Option ItemType × Option Name) (part : Str) :
    Except Str (Option ItemType × Option Name) :=
  if part = ['.', '.'] then
    match st.2 with
    | none => .error "Exceeded root level".toList
    | some n => .ok (none, n.parent)
  else if part = "index.html".toList then .ok st
  else
    match parse_url_part part (some ".html".toList) with
    | some (partTy, partName) =>
      match ItemType.from_str partTy with
      | .ok t =>
        .ok (some t, some (match st.2 with
          | some n => n.child partName
          | none => Name.fromStr partName))
      | .error e => .error e
    | none =>
      .ok (some ItemType.Module, some (match st.2 with
        | some n => n.child part
        | none => Name.fromStr part))

/-- `viewer/tui/mod.rs`: `resolve_doc_link` — split off the fragment, split the
path on `'/'` (dropping empty parts and `"."`), seed the cursor from the
current item (its parent unless the item is a module or the path is empty),
walk the parts, then let a two-part fragment refine type and name. -/
def resolve_doc_link (doc_name : Name) (doc_ty : ItemType) (link : Str) :
    Except Str (Option ItemType × Name) := do
  let (linkPath, fragment) := splitFirstOn '#' link
  let parts := (splitAll '/' linkPath).filter
    (fun s => !s.isEmpty && s ≠ ['.'])
  let st₀ : Option ItemType × Option Name :=
    if doc_ty ≠ ItemType.Module ∧ parts ≠ [] then (none, doc_name.parent)
    else (some doc_ty, some doc_name)
  let st ← parts.foldlM resolvePart st₀
  let st ←
    match fragment with
    | some frag =>
      match parse_url_part frag none with
      | some (fragTy, fragName) =>
        match ItemType.from_str fragTy with
        | .ok t =>
          pure (some t, some (match st.2 with
            | some n => n.child fragName
            | none => Name.fromStr fragName))
        | .error e => throw e
      | none => pure st
    | none => pure st
  match st.2 with
  | none => .error "Cannot handle link to root".toList
  | some n => .ok (st.1, n)

/-- The concrete resolution the specification scenario for C3 talks about:
link `"../Bar.html"` from the current item `pkg::Foo::method` of type
`Method`. -/
def c3Resolution : Except Str (Option ItemType × Name) :=
  resolve_doc_link (nameOf "pkg::Foo::method") ItemType.Method "../Bar.html".toList

/-- **C3, counterexample.** Resolving `"../Bar.html"` from `pkg::Foo::method`
(item type `Method`) yields neither `pkg::Bar` nor a hint-free target: the part
`"Bar.html"` has no two-part `type.name.html` shape (after stripping `".html"`
only one dot-part remains), so the code takes the fallback module branch, which
appends the *whole* part — the result is `pkg::Bar.html` with the item-type
hint `Module`.  The trailing Boolean equations record that a hint is attached
and that the resolved name differs from the claimed `pkg::Bar`. -/
theorem resolve_relative_link_counterexample :
    c3Resolution = .ok (some ItemType.Module, nameOf "pkg::Bar.html") ∧
    Option.isNone (some ItemType.Module) = false ∧
    ((nameOf "pkg::Bar.html").s == (nameOf "pkg::Bar").s) = false :=
  ⟨by rfl, rfl, by rfl⟩

/-- **C3, amended.** Resolving the relative link `"../Bar.html"` from the
current item `pkg::Foo::method` of item type `Method` yields the documentation
target `pkg::Bar.html` with the item-type hint `Module`: after `".."` moves the
cursor to `pkg`, the part `"Bar.html"` does not parse as a two-part
`type.name.html` token, so it is treated verbatim as a child module segment
(the `.html` suffix is not stripped in that branch). -/
theorem resolve_relative_link_amended :
    c3Resolution = .ok (some ItemType.Module, nameOf "pkg::Bar.html") := by rfl

/-! ## Search-index data model (`index.rs` and `index/v1_*.rs`) -/

/-- JSON values, the common currency of all search-index encodings. -/
inductive Json where
  | null
  | bool (b : Bool)
  | num (n : Int)
  | str (s : Str)
  | arr (elems : List Json)
  | obj (fields : List (Str × Json))

/-- Deserialize a JSON string. -/
def Json.asStr : Json → Option Str
  | .str s => some s
  | _ => none

/-- Deserialize a JSON number as a `usize` (negative numbers fail). -/
def Json.asNat : Json → Option Nat
  | .num n => if n < 0 then none else some n.toNat
  | _ => none

/-- The fields of a JSON object. -/
def Json.getObj : Json → Option (List (Str × Json))
  | .obj fs => some fs
  | _ => none

/-- Field lookup in a JSON object (serde struct deserialization). -/
def jLookup (fs : List (Str × Json)) (k : Str) : Option Json :=
  (fs.find? (fun p => p.1 == k)).map (·.2)

/-- Deserialize a JSON array element-wise. -/
def decodeList (f : Json → Option α) : Json → Option (List α)
  | .arr es => es.mapM f
  | _ => none

/-- Deserialize a `(usize, String)` pair, encoded as a two-element array. -/
def decodePathPair : Json → Option (Nat × Str)
  | .arr [a, b] => do
    let n ← a.asNat
    let s ← b.asStr
    pure (n, s)
  | _ => none

/-- `index.rs`: `struct ItemData` — the canonical per-item record all
encodings converge to (`ty`, `name`, `path`, `desc`, `parent`); the trailing
`_ignored: serde_json::Value` field is consumed during decoding and carries no
information, so it is not stored here. -/
structure ItemData where
  ty : Nat
  name : Str
  path : Str
  desc : Str
  parent : Option Nat
deriving DecidableEq, Repr

/-- `index.rs`: `struct CrateData { items, paths }` — the canonical
per-package data. -/
structure CrateData where
  items : List ItemData
  paths : List (Nat × Str)
deriving DecidableEq, Repr

/-- `index.rs`: `serde_tuple::Deserialize_tuple` on `ItemData` — a six-element
array `[ty, name, path, desc, parent, _ignored]`, with `parent: Option<usize>`
decoded from `null` or a number. -/
def decodeItemData : Json → Option ItemData
  | .arr [tyJ, nameJ, pathJ, descJ, parentJ, _ignoredJ] => do
    let ty ← tyJ.asNat
    let name ← nameJ.asStr
    let path ← pathJ.asStr
    let desc ← descJ.asStr
    let parent ←
      match parentJ with
      | .null => some none
      | j => j.asNat.map some
    pure { ty := ty, name := name, path := path, desc := desc, parent := parent }
  | _ => none

/-- `index/v1_44.rs`: `CrateData { i: Vec<ItemData>, p: Vec<(usize, String)> }`;
its `From` conversion into the canonical `CrateData` is the identity, so the
decoder below already yields the canonical record. -/
def decodeCrateV1_44 (j : Json) : Option CrateData := do
  let fs ← j.getObj
  let items ← decodeList decodeItemData (← jLookup fs "i".toList)
  let paths ← decodeList decodePathPair (← jLookup fs "p".toList)
  pure { items := items, paths := paths }

/-- `index/v1_52.rs`: `struct CrateData` — parallel arrays with item types as
numbers (`t`), names (`n`), paths (`q`), descriptions (`d`), parents (`i`) and
the shared `paths` table (`p`). -/
structure V52CrateData where
  item_types : List ItemType
  item_names : List Str
  item_paths : List Str
  item_descs : List Str
  item_parents : List Nat
  paths : List (Nat × Str)
deriving DecidableEq, Repr

/-- Deserializing one numeric `ItemType` (`serde_repr`). -/
def decodeItemType (j : Json) : Option ItemType := do
  ItemType.ofCode (← j.asNat)

/-- Deserializer for the v1.52 per-package shape. -/
def decodeCrateV1_52 (j : Json) : Option V52CrateData := do
  let fs ← j.getObj
  let item_types ← decodeList decodeItemType (← jLookup fs "t".toList)
  let item_names ← decodeList Json.asStr (← jLookup fs "n".toList)
  let item_paths ← decodeList Json.asStr (← jLookup fs "q".toList)
  let item_descs ← decodeList Json.asStr (← jLookup fs "d".toList)
  let item_parents ← decodeList Json.asNat (← jLookup fs "i".toList)
  let paths ← decodeList decodePathPair (← jLookup fs "p".toList)
  pure { item_types := item_types, item_names := item_names,
         item_paths := item_paths, item_descs := item_descs,
         item_parents := item_parents, paths := paths }

/-- `index/v1_52.rs`: `From<CrateData> for super::CrateData` — zip the five
parallel arrays (truncating to the shortest, as iterator `zip` does) and decode
the parent index: raw `0` means no parent, raw `n > 0` becomes index `n - 1`. -/
def V52CrateData.toCrate (d : V52CrateData) : CrateData :=
  { items :=
      ((((d.item_types.zip d.item_names).zip d.item_paths).zip
          d.item_descs).zip d.item_parents).map
        (fun x =>
          { ty := x.1.1.1.1.code, name := x.1.1.1.2, path := x.1.1.2,
            desc := x.1.2,
            parent := if x.2 = 0 then none else some (x.2 - 1) })
    paths := d.paths }

/-- `index/v1_69.rs`: `enum ItemPaths` — the `q` field is either a plain string
list or sparse `(index, string)` pairs (`serde(untagged)`, `Raw` tried first). -/
inductive ItemPaths where
  | Raw (v : List Str)
  | Indexed (v : List (Nat × Str))
deriving DecidableEq, Repr

/-- `serde(untagged)` deserialization of `ItemPaths`: try `Raw`, then
`Indexed`. -/
def decodeItemPaths (j : Json) : Option ItemPaths :=
  match decodeList Json.asStr j with
  | some v => some (.Raw v)
  | none => (decodeList decodePathPair j).map .Indexed

/-- `index/v1_69.rs`: `struct CrateData` — like v1.52 but with the item types
packed into one string of one-character codes and the paths possibly sparse. -/
structure V69CrateData where
  item_types : Str
  item_names : List Str
  item_paths : ItemPaths
  item_descs : List Str
  item_parents : List Nat
  paths : List (Nat × Str)
deriving DecidableEq, Repr

/-- Deserializer for the v1.69 per-package shape. -/
def decodeCrateV1_69 (j : Json) : Option V69CrateData := do
  let fs ← j.getObj
  let item_types ← (← jLookup fs "t".toList).asStr
  let item_names ← decodeList Json.asStr (← jLookup fs "n".toList)
  let item_paths ← decodeItemPaths (← jLookup fs "q".toList)
  let item_descs ← decodeList Json.asStr (← jLookup fs "d".toList)
  let item_parents ← decodeList Json.asNat (← jLookup fs "i".toList)
  let paths ← decodeList decodePathPair (← jLookup fs "p".toList)
  pure { item_types := item_types, item_names := item_names,
         item_paths := item_paths, item_descs := item_descs,
         item_parents := item_parents, paths := paths }

/-- Modelled from the spec: `crate::doc::ItemType::try_from(char)` — the
character-to-`ItemType` mapping used by the v1.69 encoding.  The impl is
referenced by `index/v1_69.rs` but its definition is not part of this source
snapshot; per the specification it is total over the code set of the encoding
and fails on an unrecognized code.  We model the code of an item type as the
character `'A' + discriminant`. -/
def ItemType.try_from (c : Char) : Option ItemType :=
  if 'A' ≤ c then ItemType.ofCode (c.toNat - 'A'.toNat) else none

/-- `HashMap::get` over the collected `(usize, String)` pairs; on duplicate
keys the later insertion wins, as for `HashMap::collect`. -/
def hmGet (l : List (Nat × Str)) (k : Nat) : Option Str :=
  (l.reverse.find? (fun p => p.1 == k)).map (·.2)

/-- The chained-zip loop of `From<CrateData> for super::CrateData` in
`index/v1_69.rs`: each consumed type character is converted with
`ItemType::try_from(c).unwrap()`, whose panic on an unrecognized code is
modelled as `none`; characters beyond the shortest parallel array are never
consumed by the zip and hence never converted. -/
def v69Zip : Str → List Str → List Str → List Nat →
    Option (List (ItemType × Str × Str × Nat))
  | c :: cs, n :: ns, d :: ds, p :: ps => do
    let ty ← ItemType.try_from c
    let rest ← v69Zip cs ns ds ps
    pure ((ty, n, d, p) :: rest)
  | _, _, _, _ => some []

/-- `index/v1_69.rs`: `From<CrateData> for super::CrateData` — build the path
map from `q` (enumerating and dropping empty strings in the `Raw` case), zip
types/names/descs/parents, and decode the parent index: raw `0` means no
parent, raw `n > 0` becomes index `n - 1`.  The item path is looked up by
item position, defaulting to the empty string. -/
def V69CrateData.toCrate (d : V69CrateData) : Option CrateData := do
  let path_map : List (Nat × Str) :=
    match d.item_paths with
    | .Raw v => (v.enum.filter (fun p => p.2.length > 0))
    | .Indexed v => v
  let zipped ← v69Zip d.item_types d.item_names d.item_descs d.item_parents
  let items := zipped.enum.map
    (fun x =>
      { ty := x.2.1.code, name := x.2.2.1,
        path := (hmGet path_map x.1).getD [],
        desc := x.2.2.2.1,
        parent := if x.2.2.2.2 = 0 then none else some (x.2.2.2.2 - 1)
        : ItemData })
  pure { items := items, paths := d.paths }

/-! ## C1: parent-index decoding -/

theorem optBind_eq_some {α β : Type} {o : Option α} {f : α → Option β} {b : β} :
    (o >>= f) = some b ↔ ∃ a, o = some a ∧ f a = some b :=
  Option.bind_eq_some

theorem v69Zip_parent_component (cs : Str) :
    ∀ (ns ds : List Str) (ps : List Nat) (l : List (ItemType × Str × Str × Nat))
      (k : Nat) (x : ItemType × Str × Str × Nat),
      v69Zip cs ns ds ps = some l → l[k]? = some x → ps[k]? = some x.2.2.2 := by
  induction cs with
  | nil =>
    intro ns ds ps l k x h hx
    rw [show v69Zip [] ns ds ps = some [] from rfl] at h
    cases h
    simp at hx
  | cons c cs ih =>
    intro ns ds ps l k x h hx
    match ns, ds, ps with
    | [], ds, ps =>
      rw [show v69Zip (c :: cs) [] ds ps = some [] from rfl] at h
      cases h; simp at hx
    | _ :: _, [], ps =>
      rw [show v69Zip (c :: cs) (_ :: _) [] ps = some [] from rfl] at h
      cases h; simp at hx
    | _ :: _, _ :: _, [] =>
      rw [show v69Zip (c :: cs) (_ :: _) (_ :: _) [] = some [] from rfl] at h
      cases h; simp at hx
    | n :: ns, d :: ds, p :: ps =>
      rw [show v69Zip (c :: cs) (n :: ns) (d :: ds) (p :: ps) =
        (do
          let ty ← ItemType.try_from c
          let rest ← v69Zip cs ns ds ps
          pure ((ty, n, d, p) :: rest)) from rfl] at h
      simp only [optBind_eq_some, Option.pure_def, Option.some.injEq] at h
      obtain ⟨ty, _, rest, hrest, hl⟩ := h
      subst hl
      cases k with
      | zero =>
        simp only [List.getElem?_cons_zero, Option.some.injEq] at hx
        subst hx
        simp
      | succ k =>
        simp only [List.getElem?_cons_succ] at hx ⊢
        exact ih ns ds ps rest k x hrest hx

theorem v52_parent_decoding (d : V52CrateData) (k : Nat) (item : ItemData)
    (h : (V52CrateData.toCrate d).items[k]? = some item) :
    ∃ raw, d.item_parents[k]? = some raw ∧
      item.parent = if raw = 0 then none else some (raw - 1) := by
  unfold V52CrateData.toCrate at h
  simp only [List.getElem?_map, Option.map_eq_some'] at h
  obtain ⟨x, hx, hfx⟩ := h
  rw [List.getElem?_zip_eq_some] at hx
  exact ⟨x.2, hx.2, by rw [← hfx]⟩

theorem v69_parent_decoding (d : V69CrateData) (c : CrateData)
    (hc : V69CrateData.toCrate d = some c) (k : Nat) (item : ItemData)
    (h : c.items[k]? = some item) :
    ∃ raw, d.item_parents[k]? = some raw ∧
      item.parent = if raw = 0 then none else some (raw - 1) := by
  unfold V69CrateData.toCrate at hc
  simp only [optBind_eq_some, Option.pure_def, Option.some.injEq] at hc
  obtain ⟨zipped, hz, hcc⟩ := hc
  subst hcc
  simp only [List.getElem?_map, Option.map_eq_some'] at h
  obtain ⟨x, hx, hfx⟩ := h
  rw [List.getElem?_enum] at hx
  simp only [Option.map_eq_some'] at hx
  obtain ⟨y, hy, hxy⟩ := hx
  subst hxy
  refine ⟨y.2.2.2, v69Zip_parent_component d.item_types d.item_names
    d.item_descs d.item_parents zipped k y hz hy, ?_⟩
  rw [← hfx]

theorem v44_parent_num (a b c d ig : Json) (n : Nat) (item : ItemData)
    (h : decodeItemData (.arr [a, b, c, d, .num (Int.ofNat n), ig]) = some item) :
    item.parent = some n := by
  simp only [decodeItemData, optBind_eq_some, Option.pure_def,
    Option.some.injEq] at h
  obtain ⟨ty, _, name, _, path, _, desc, _, parent, hp, hitem⟩ := h
  subst hitem
  have hnn : ¬ (Int.ofNat n < 0) := not_lt.mpr (Int.ofNat_nonneg n)
  simp only [Json.asNat] at hp
  rw [if_neg hnn] at hp
  simp only [Option.map_some', Option.some.injEq] at hp
  subst hp
  simp [Int.toNat_ofNat]

theorem v44_parent_null (a b c d ig : Json) (item : ItemData)
    (h : decodeItemData (.arr [a, b, c, d, .null, ig]) = some item) :
    item.parent = none := by
  simp only [decodeItemData, optBind_eq_some, Option.pure_def,
    Option.some.injEq] at h
  obtain ⟨ty, _, name, _, path, _, desc, _, parent, hp, hitem⟩ := h
  subst hitem
  cases hp
  rfl

/-- **C1, amended.** Parent-index decoding is encoding-specific.  In the two
parallel-array encodings (`index/v1_52.rs` and `index/v1_69.rs`) a raw parent
value of `0` decodes to "no parent" and a raw value `n > 0` is decremented to
the `paths` index `n - 1`.  In the fixed-size-tuple encoding
(`index.rs` / `index/v1_44.rs`), however, the raw parent is passed through
unchanged: JSON `null` means "no parent" and a raw number `n` (including `0`)
is kept verbatim as a 0-based `paths` index. -/
theorem parent_index_decoding_amended :
    (∀ (d : V52CrateData) (k : Nat) (item : ItemData),
      (V52CrateData.toCrate d).items[k]? = some item →
      ∃ raw, d.item_parents[k]? = some raw ∧
        item.parent = if raw = 0 then none else some (raw - 1)) ∧
    (∀ (d : V69CrateData) (c : CrateData),
      V69CrateData.toCrate d = some c →
      ∀ (k : Nat) (item : ItemData), c.items[k]? = some item →
      ∃ raw, d.item_parents[k]? = some raw ∧
        item.parent = if raw = 0 then none else some (raw - 1)) ∧
    (∀ (a b c d ig : Json) (n : Nat) (item : ItemData),
      decodeItemData (.arr [a, b, c, d, .num (Int.ofNat n), ig]) = some item →
      item.parent = some n) ∧
    (∀ (a b c d ig : Json) (item : ItemData),
      decodeItemData (.arr [a, b, c, d, .null, ig]) = some item →
      item.parent = none) :=
  ⟨v52_parent_decoding, v69_parent_decoding, v44_parent_num, v44_parent_null⟩

/-- A concrete v1.44-encoded package: one item whose raw parent value is the
number `0`, and a one-entry `paths` table. -/
def c1RawCrate : Json :=
  .obj [("i".toList, .arr [.arr [.num 0, .str "n".toList, .str "p".toList,
          .str "d".toList, .num 0, .null]]),
        ("p".toList, .arr [.arr [.num 0, .str "X".toList]])]

/-- **C1, counterexample.** In the supported fixed-size-tuple encoding
(`index.rs` / `index/v1_44.rs`), the raw parent-index value `0` does *not*
decode to "no parent": the concrete package `c1RawCrate` decodes successfully
and its single item carries `parent = some 0` (addressing entry 0 of `paths`),
whose `isNone` is `false` — contradicting the claim that a raw `0` decodes to
`None` in every supported encoding. -/
theorem parent_index_decoding_counterexample :
    (decodeCrateV1_44 c1RawCrate).map (fun c => c.items.map (·.parent)) =
      some [some 0] ∧
    Option.isNone (some (0 : Nat)) = false :=
  ⟨by rfl, rfl⟩

/-- A concrete v1.52-encoded package for the witness: two items with raw
parents `0` and `3`. -/
def c1W52 : V52CrateData :=
  { item_types := [ItemType.Struct, ItemType.Method]
    item_names := ["Foo".toList, "bar".toList]
    item_paths := ["pkg".toList, "pkg".toList]
    item_descs := [[], []]
    item_parents := [0, 3]
    paths := [(3, "Foo".toList)] }

/-- The canonical item the v1.52 adapter produces for the second entry of
`c1W52`. -/
def c1W52Item : ItemData :=
  { ty := 11, name := "bar".toList, path := "pkg".toList,
    desc := [], parent := some 2 }

/-- Witness for the amended C1 theorem: decoding `c1W52` through the v1.52
adapter, the second item receives the decremented parent index `3 - 1 = 2`. -/
theorem parent_index_decoding_amended_witness :
    ∃ raw, c1W52.item_parents[1]? = some raw ∧
      c1W52Item.parent = if raw = 0 then none else some (raw - 1) :=
  parent_index_decoding_amended.1 c1W52 1 c1W52Item (by rfl)

/-! ## C5: the adapter chain of `Index::load` -/

/-- The v1.69 adapter applied to one raw per-package JSON value: structural
deserialization followed by the conversion to canonical `CrateData` (which
fails on an unrecognized item-type code). -/
def adapterV1_69 (j : Json) : Option CrateData :=
  (decodeCrateV1_69 j).bind V69CrateData.toCrate

/-- The v1.52 adapter applied to one raw per-package JSON value. -/
def adapterV1_52 (j : Json) : Option CrateData :=
  (decodeCrateV1_52 j).map V52CrateData.toCrate

/-- The v1.44 adapter applied to one raw per-package JSON value (its
conversion is the identity). -/
def adapterV1_44 (j : Json) : Option CrateData :=
  decodeCrateV1_44 j

/-- Modelled from the spec: the per-package adapter chain of `Index::load`.
The snapshot's `src/index.rs` is an older, single-schema loader and the
adapter-chain driver that ties `index/v1_69.rs`, `index/v1_52.rs` and
`index/v1_44.rs` together is not part of this source snapshot; per the
specification, the adapters are tried in a fixed, most-specific-first order
(the char-coded parallel arrays, then the numeric parallel arrays, then the
fixed-size tuples), a structural parse failure on one adapter means the next
is tried, and only exhausting all adapters is an error. -/
def CrateData.fromJson (j : Json) : Except Str CrateData :=
  match adapterV1_69 j with
  | some c => .ok c
  | none =>
    match adapterV1_52 j with
    | some c => .ok c
    | none =>
      match adapterV1_44 j with
      | some c => .ok c
      | none => .error "Could not parse search index".toList

/-- **C5.** The adapter chain is failure-tolerant and ordered
most-specific-first: a per-package value accepted by the v1.69 adapter loads
through it; if the v1.69 adapter fails structurally, the v1.52 adapter is
tried; if both fail, the v1.44 adapter is tried; and the chain reports an
error exactly when all three adapters fail.  In particular an index that is
structurally valid in any one of the known encodings loads successfully, and a
parse failure against one encoding alone is never an error. -/
theorem adapter_chain_order :
    (∀ j c, adapterV1_69 j = some c → CrateData.fromJson j = .ok c) ∧
    (∀ j c, adapterV1_69 j = none → adapterV1_52 j = some c →
      CrateData.fromJson j = .ok c) ∧
    (∀ j c, adapterV1_69 j = none → adapterV1_52 j = none →
      adapterV1_44 j = some c → CrateData.fromJson j = .ok c) ∧
    (∀ j, adapterV1_69 j = none → adapterV1_52 j = none →
      adapterV1_44 j = none →
      CrateData.fromJson j = .error "Could not parse search index".toList) ∧
    (∀ j, (∃ c, CrateData.fromJson j = .ok c) ↔
      ((adapterV1_69 j).isSome ∨ (adapterV1_52 j).isSome ∨
        (adapterV1_44 j).isSome)) := by
  refine ⟨?_, ?_, ?_, ?_, ?_⟩
  · intro j c h; unfold CrateData.fromJson; rw [h]
  · intro j c h69 h52; unfold CrateData.fromJson; rw [h69, h52]
  · intro j c h69 h52 h44; unfold CrateData.fromJson; rw [h69, h52, h44]
  · intro j h69 h52 h44; unfold CrateData.fromJson; rw [h69, h52, h44]
  · intro j
    unfold CrateData.fromJson
    rcases h69 : adapterV1_69 j with _ | c69
    · rcases h52 : adapterV1_52 j with _ | c52
      · rcases h44 : adapterV1_44 j with _ | c44
        · simp
        · simp
      · simp
    · simp

/-- A concrete package in the v1.52 encoding (numeric `t` array), which the
v1.69 adapter rejects structurally (`t` must be a string there). -/
def c5Json52 : Json :=
  .obj [("t".toList, .arr [.num 3]),
        ("n".toList, .arr [.str "Foo".toList]),
        ("q".toList, .arr [.str "pkg".toList]),
        ("d".toList, .arr [.str []]),
        ("i".toList, .arr [.num 0]),
        ("p".toList, .arr [])]

/-- The canonical data `c5Json52` decodes to. -/
def c5Crate : CrateData :=
  { items := [{ ty := 3, name := "Foo".toList, path := "pkg".toList,
                desc := [], parent := none }]
    paths := [] }

/-- Witness for C5: the concrete v1.52-encoded package `c5Json52` fails the
v1.69 adapter structurally, yet the chain recovers and loads it through the
v1.52 adapter. -/
theorem adapter_chain_order_witness :
    CrateData.fromJson c5Json52 = .ok c5Crate :=
  adapter_chain_order.2.1 c5Json52 c5Crate (by rfl) (by rfl)

/-! ## C6: `Index::load` wrapper markers (`index.rs`, lines 70–111) -/

/-- The backslash character. -/
def bslashChar : Char := Char.ofNat 92

/-- The single-quote character. -/
def squoteChar : Char := Char.ofNat 39

/-- The double-quote character. -/
def dquoteChar : Char := Char.ofNat 34

/-- The opening-brace character. -/
def obraceChar : Char := Char.ofNat 123

/-- The closing-brace character. -/
def cbraceChar : Char := Char.ofNat 125

/-- JSON whitespace. -/
def isJsonWs (c : Char) : Bool :=
  c = ' ' || c = Char.ofNat 9 || c = Char.ofNat 10 || c = Char.ofNat 13

/-- Parse the body of a JSON string after the opening quote, handling the
usual escapes; returns the decoded content and the remainder after the
closing quote. -/
def parseStringBody : Str → Option (Str × Str)
  | [] => none
  | c :: rest =>
    if c = dquoteChar then some ([], rest)
    else if c = bslashChar then
      match rest with
      | [] => none
      | e :: rest' =>
        if e = 'u' then
          match rest' with
          | h1 :: h2 :: h3 :: h4 :: tail =>
            if (h1.isDigit || h1.isAlpha) && (h2.isDigit || h2.isAlpha) &&
               (h3.isDigit || h3.isAlpha) && (h4.isDigit || h4.isAlpha)
            then
              (parseStringBody tail).map (fun p =>
                (Char.ofNat (((h1.toNat % 16 + (if h1.isDigit then 0 else 9))
                  * 16 + (h2.toNat % 16 + (if h2.isDigit then 0 else 9)))
                  * 16 * 16 +
                  (h3.toNat % 16 + (if h3.isDigit then 0 else 9)) * 16 +
                  (h4.toNat % 16 + (if h4.isDigit then 0 else 9))) :: p.1, p.2))
            else none
          | _ => none
        else
          (if e = dquoteChar then some dquoteChar
           else if e = bslashChar then some bslashChar
           else if e = '/' then some '/'
           else if e = 'n' then some (Char.ofNat 10)
           else if e = 't' then some (Char.ofNat 9)
           else if e = 'r' then some (Char.ofNat 13)
           else if e = 'b' then some (Char.ofNat 8)
           else if e = 'f' then some (Char.ofNat 12)
           else none).bind
            (fun d => (parseStringBody rest').map (fun p => (d :: p.1, p.2)))
    else (parseStringBody rest).map (fun p => (c :: p.1, p.2))

/-- Digits to a natural number. -/
def digitsToNat (ds : Str) : Nat :=
  ds.foldl (fun acc c => acc * 10 + (c.toNat - '0'.toNat)) 0

/-- Parse a JSON integer (optional minus sign, then digits); fractional
numbers do not occur in search indexes and are not modelled. -/
def parseNumber (s : Str) : Option (Int × Str) :=
  match s with
  | c :: rest =>
    if c = '-' then
      match rest.span Char.isDigit with
      | ([], _) => none
      | (ds, rest') => some (-(digitsToNat ds : Int), rest')
    else
      match s.span Char.isDigit with
      | ([], _) => none
      | (ds, rest') => some ((digitsToNat ds : Int), rest')
  | [] => none

mutual

/-- Fuel-driven JSON value parser (whitespace-tolerant). -/
def parseVal : Nat → Str → Option (Json × Str)
  | 0, _ => none
  | fuel + 1, s =>
    match s.dropWhile isJsonWs with
    | [] => none
    | c :: rest =>
      if c = dquoteChar then (parseStringBody rest).map (fun p => (.str p.1, p.2))
      else if c = '[' then
        match rest.dropWhile isJsonWs with
        | ']' :: rest' => some (.arr [], rest')
        | _ => (parseElems fuel rest).map (fun p => (.arr p.1, p.2))
      else if c = obraceChar then
        match rest.dropWhile isJsonWs with
        | r :: rest' =>
          if r = cbraceChar then some (.obj [], rest')
          else (parseMembers fuel rest).map (fun p => (.obj p.1, p.2))
        | [] => none
      else if "null".toList.isPrefixOf (c :: rest) then
        some (.null, (c :: rest).drop 4)
      else if "true".toList.isPrefixOf (c :: rest) then
        some (.bool true, (c :: rest).drop 4)
      else if "false".toList.isPrefixOf (c :: rest) then
        some (.bool false, (c :: rest).drop 5)
      else (parseNumber (c :: rest)).map (fun p => (.num p.1, p.2))

/-- Parse one or more comma-separated array elements up to `]`. -/
def parseElems : Nat → Str → Option (List Json × Str)
  | 0, _ => none
  | fuel + 1, s => do
    let (v, s₁) ← parseVal fuel s
    match s₁.dropWhile isJsonWs with
    | ',' :: rest => (parseElems fuel rest).map (fun p => (v :: p.1, p.2))
    | ']' :: rest => some ([v], rest)
    | _ => none

/-- Parse one or more comma-separated object members up to the closing
brace. -/
def parseMembers : Nat → Str → Option (List (Str × Json) × Str)
  | 0, _ => none
  | fuel + 1, s =>
    match s.dropWhile isJsonWs with
    | c :: rest =>
      if c = dquoteChar then do
        let (key, s₁) ← parseStringBody rest
        match s₁.dropWhile isJsonWs with
        | ':' :: s₂ => do
          let (v, s₃) ← parseVal fuel s₂
          match s₃.dropWhile isJsonWs with
          | ',' :: rest' =>
            (parseMembers fuel rest').map (fun p => ((key, v) :: p.1, p.2))
          | r :: rest' =>
            if r = cbraceChar then some ([(key, v)], rest') else none
          | [] => none
        | _ => none
      else none
    | [] => none

end

/-- `serde_json::from_str`, structurally: parse one JSON value and demand
that only whitespace follows. -/
def parseJsonText (s : Str) : Option Json := do
  let (v, rest) ← parseVal (2 * s.length + 4) s
  if (rest.dropWhile isJsonWs).isEmpty then pure v else none

/-- The old `Data` wrapper of `index.rs`: a `#[serde(transparent)]` map from
package name to the tuple-encoded per-package data. -/
def decodeData (j : Json) : Option (List (Str × CrateData)) := do
  let fs ← j.getObj
  fs.mapM (fun p => (decodeCrateV1_44 p.2).map (fun c => (p.1, c)))

/-- The opening wrapper marker of `Index::load`:
the exact line `var searchIndex = JSON.parse('{\`. -/
def openMarker : Str :=
  "var searchIndex = JSON.parse(".toList ++ [squoteChar, obraceChar, bslashChar]

/-- The closing wrapper marker of `Index::load`: the exact line `}');`. -/
def closeMarker : Str := [cbraceChar, squoteChar, ')', ';']

/-- Rust `str::trim_end_matches('\\')`: drop all trailing backslashes. -/
def trimEndBackslashes (l : Str) : Str :=
  (l.reverse.dropWhile (· = bslashChar)).reverse

/-- The accumulation loop of `Index::load` after the opening marker was seen:
append each line (with trailing backslashes removed) until the closing marker
line, which appends `"}"` and marks the JSON as finished. -/
def accumJson : List Str → Str → Str × Bool
  | [], acc => (acc, false)
  | l :: ls, acc =>
    if l = closeMarker then (acc ++ [cbraceChar], true)
    else accumJson ls (acc ++ trimEndBackslashes l)

/-- The line scan of `Index::load`: look for the opening marker, then
accumulate until the closing marker. -/
def scanForJson : List Str → Option (Str × Bool)
  | [] => none
  | l :: ls =>
    if l = openMarker then some (accumJson ls [obraceChar])
    else scanForJson ls

/-- Rust `str::replace("\\'", "'")`: unescape the single quotes. -/
def replaceEscapedQuote : Str → Str
  | [] => []
  | [a] => [a]
  | a :: b :: rest =>
    if a = bslashChar ∧ b = squoteChar then
      squoteChar :: replaceEscapedQuote rest
    else a :: replaceEscapedQuote (b :: rest)

/-- `index.rs`: `Index::load`, over the file's lines: return `Ok(None)` when
the wrapper markers are not found (no opening marker, or no closing marker
after it), a description-carrying error when the enclosed payload does not
parse as the index JSON, and the parsed data otherwise. -/
def Index.load (lines : List Str) : Except Str (Option (List (Str × CrateData))) :=
  match scanForJson lines with
  | some (j, true) =>
    match (parseJsonText (replaceEscapedQuote j)).bind decodeData with
    | some d => .ok (some d)
    | none => .error "Could not parse search index".toList
  | some (_, false) => .ok none
  | none => .ok none

/-- The wrapper markers are present: some line is the opening marker and some
later line is the closing marker. -/
def wrapperFound (lines : List Str) : Prop :=
  ∃ (i j : Nat), i < j ∧ lines[i]? = some openMarker ∧
    lines[j]? = some closeMarker

/-- The scan reached the closing marker. -/
def scanFinished (lines : List Str) : Prop :=
  ∃ j, scanForJson lines = some (j, true)

/-- The payload enclosed by the wrapper markers, when the scan found both of
them: the accumulated JSON text that `Index::load` hands to the parser. -/
def wrapperPayload (lines : List Str) : Option Str :=
  match scanForJson lines with
  | some (j, true) => some j
  | _ => none

theorem accumJson_finished (ls : List Str) :
    ∀ acc, (accumJson ls acc).2 = true ↔ closeMarker ∈ ls := by
  induction ls with
  | nil => intro acc; simp [accumJson]
  | cons l ls ih =>
    intro acc
    by_cases hl : l = closeMarker
    · subst hl; simp [accumJson]
    · rw [show accumJson (l :: ls) acc =
        accumJson ls (acc ++ trimEndBackslashes l) from by
          simp [accumJson, hl]]
      rw [ih]
      simp only [List.mem_cons]
      constructor
      · exact Or.inr
      · rintro (h | h)
        · exact absurd h.symm hl
        · exact h

theorem scanFinished_iff_wrapperFound (lines : List Str) :
    scanFinished lines ↔ wrapperFound lines := by
  induction lines with
  | nil =>
    constructor
    · rintro ⟨j, hj⟩; simp [scanForJson] at hj
    · rintro ⟨i, j, _, hi, _⟩; simp at hi
  | cons l ls ih =>
    by_cases hl : l = openMarker
    · subst hl
      have hstep : scanFinished (openMarker :: ls) ↔
          (accumJson ls [obraceChar]).2 = true := by
        unfold scanFinished
        rw [show scanForJson (openMarker :: ls) =
          some (accumJson ls [obraceChar]) from by simp [scanForJson]]
        constructor
        · rintro ⟨j, hj⟩
          have h2 := congrArg Prod.snd (Option.some.inj hj)
          simpa using h2
        · intro h
          refine ⟨(accumJson ls [obraceChar]).1, ?_⟩
          rw [show accumJson ls [obraceChar] =
            ((accumJson ls [obraceChar]).1, (accumJson ls [obraceChar]).2)
            from rfl, h]
      rw [hstep, accumJson_finished]
      constructor
      · intro hmem
        obtain ⟨k, hk⟩ := List.mem_iff_getElem?.mp hmem
        exact ⟨0, k + 1, Nat.succ_pos k, by simp, by simpa using hk⟩
      · rintro ⟨i, j, hij, _, hj⟩
        match j, hij with
        | j + 1, _ =>
          simp only [List.getElem?_cons_succ] at hj
          exact List.mem_iff_getElem?.mpr ⟨j, hj⟩
    · have hstep : scanFinished (l :: ls) ↔ scanFinished ls := by
        unfold scanFinished
        rw [show scanForJson (l :: ls) = scanForJson ls from by
          simp [scanForJson, hl]]
      rw [hstep, ih]
      constructor
      · rintro ⟨i, j, hij, hi, hj⟩
        exact ⟨i + 1, j + 1, Nat.succ_lt_succ hij, by simpa using hi,
          by simpa using hj⟩
      · rintro ⟨i, j, hij, hi, hj⟩
        match i, j, hij with
        | 0, _, _ =>
          simp only [List.getElem?_cons_zero, Option.some.injEq] at hi
          exact absurd hi hl
        | i + 1, 0, hij => exact absurd hij (by omega)
        | i + 1, j + 1, hij =>
          simp only [List.getElem?_cons_succ] at hi hj
          exact ⟨i, j, Nat.lt_of_succ_lt_succ hij, hi, hj⟩


/-- **C6.** `Index::load` returns `None` (not an error) exactly when the
wrapper markers around the embedded search-index assignment are not found —
no line equals the opening marker, or no later line equals the closing
marker. When the wrapper is found, the enclosed payload exists, and `load`
returns the description-carrying error `"Could not parse search index"`
exactly when that payload does not parse as the index JSON; when the
payload parses, `load` returns the parsed data. -/
theorem load_none_iff_wrapper_missing :
    ∀ lines : List Str,
      (Index.load lines = .ok none ↔ ¬ wrapperFound lines) ∧
      (∀ j, wrapperPayload lines = some j →
        (Index.load lines = .error "Could not parse search index".toList ↔
          (parseJsonText (replaceEscapedQuote j)).bind decodeData = none) ∧
        ∀ d, (parseJsonText (replaceEscapedQuote j)).bind decodeData =
            some d →
          Index.load lines = .ok (some d)) ∧
      (wrapperFound lines → ∃ j, wrapperPayload lines = some j) := by
  intro lines
  rw [← scanFinished_iff_wrapperFound]
  rcases hscan : scanForJson lines with _ | ⟨j, b⟩
  · have hln : Index.load lines = .ok none := by
      unfold Index.load; rw [hscan]
    have hnofin : ¬ scanFinished lines := by
      rintro ⟨j', hj'⟩
      rw [hscan] at hj'
      cases hj'
    refine ⟨iff_of_true hln hnofin, ?_, fun hfin => absurd hfin hnofin⟩
    intro j' hj'
    unfold wrapperPayload at hj'
    rw [hscan] at hj'
    cases hj'
  · cases b
    · have hln : Index.load lines = .ok none := by
        unfold Index.load; rw [hscan]
      have hnofin : ¬ scanFinished lines := by
        rintro ⟨j', hj'⟩
        rw [hscan] at hj'
        cases hj'
      refine ⟨iff_of_true hln hnofin, ?_, fun hfin => absurd hfin hnofin⟩
      intro j' hj'
      unfold wrapperPayload at hj'
      rw [hscan] at hj'
      cases hj'
    · have hfin : scanFinished lines := ⟨j, hscan⟩
      have hpay : wrapperPayload lines = some j := by
        unfold wrapperPayload; rw [hscan]
      have hpay2 : ∀ j', wrapperPayload lines = some j' → j' = j := by
        intro j' hj'
        rw [hpay] at hj'
        exact (Option.some.inj hj').symm
      rcases hparse : (parseJsonText (replaceEscapedQuote j)).bind decodeData
          with _ | d
      · have herr : Index.load lines =
            .error "Could not parse search index".toList := by
          unfold Index.load; rw [hscan]
          show (match (parseJsonText (replaceEscapedQuote j)).bind decodeData
            with
            | some d => (.ok (some d) :
                Except Str (Option (List (Str × CrateData))))
            | none => .error "Could not parse search index".toList) = _
          rw [hparse]
        refine ⟨iff_of_false ?_ ?_, ?_, fun _ => ⟨j, hpay⟩⟩
        · rw [herr]; intro h; cases h
        · intro hno; exact hno hfin
        · intro j' hj'
          cases hpay2 j' hj'
          refine ⟨iff_of_true herr hparse, ?_⟩
          intro d hd
          rw [hparse] at hd
          cases hd
      · have hok : Index.load lines = .ok (some d) := by
          unfold Index.load; rw [hscan]
          show (match (parseJsonText (replaceEscapedQuote j)).bind decodeData
            with
            | some d => (.ok (some d) :
                Except Str (Option (List (Str × CrateData))))
            | none => .error "Could not parse search index".toList) = _
          rw [hparse]
        refine ⟨iff_of_false ?_ ?_, ?_, fun _ => ⟨j, hpay⟩⟩
        · rw [hok]; intro h; cases h
        · intro hno; exact hno hfin
        · intro j' hj'
          cases hpay2 j' hj'
          refine ⟨iff_of_false ?_ ?_, ?_⟩
          · rw [hok]; intro h; cases h
          · rw [hparse]; intro h; cases h
          · intro d' hd'
            rw [hparse] at hd'
            rw [hok, Option.some.inj hd']

/-- Witness for C6: a file containing only the opening marker line (no
closing marker) makes `Index::load` return `None`; a file whose wrapper
encloses the unparsable payload line `garbage` makes it return the
description-carrying error — both by the main theorem. -/
theorem load_none_iff_wrapper_missing_witness :
    Index.load [openMarker] = .ok none ∧
    Index.load [openMarker, "garbage".toList, closeMarker] =
      .error "Could not parse search index".toList :=
  ⟨(load_none_iff_wrapper_missing [openMarker]).1.mpr (by
      rintro ⟨i, j, hij, hi, hj⟩
      match j, hij with
      | j + 1, _ => simp at hj),
    (((load_none_iff_wrapper_missing
        [openMarker, "garbage".toList, closeMarker]).2.1
      ([obraceChar] ++ "garbage".toList ++ [cbraceChar]) rfl).1.mpr rfl)⟩

/-! ## `Index::find` (`index.rs`, lines 113–150) -/

/-- `index.rs`: `struct IndexItem { path, name, description }`; the field
order matters because `derive(Ord)` compares lexicographically in declaration
order. -/
structure IndexItem where
  path : Str
  name : Str
  description : Str
deriving DecidableEq, Repr

/-- The derived `Ord` of `IndexItem`: lexicographic on
(path, name, description), with Rust's `String` ordering (lexicographic on
characters, which for UTF-8 equals code-point order). -/
def IndexItem.le (x y : IndexItem) : Bool :=
  decide (x.path < y.path ∨ (x.path = y.path ∧
    (x.name < y.name ∨ (x.name = y.name ∧ x.description ≤ y.description))))

theorem indexItemLe_trans (a b c : IndexItem) :
    IndexItem.le a b → IndexItem.le b c → IndexItem.le a c := by
  unfold IndexItem.le
  simp only [decide_eq_true_eq]
  rintro (h₁ | ⟨hp₁, h₁⟩) (h₂ | ⟨hp₂, h₂⟩)
  · exact Or.inl (lt_trans h₁ h₂)
  · exact Or.inl (hp₂ ▸ h₁)
  · exact Or.inl (hp₁ ▸ h₂)
  · refine Or.inr ⟨hp₁.trans hp₂, ?_⟩
    rcases h₁ with h₁ | ⟨hn₁, h₁⟩ <;> rcases h₂ with h₂ | ⟨hn₂, h₂⟩
    · exact Or.inl (lt_trans h₁ h₂)
    · exact Or.inl (hn₂ ▸ h₁)
    · exact Or.inl (hn₁ ▸ h₂)
    · exact Or.inr ⟨hn₁.trans hn₂, h₁.trans h₂⟩

theorem indexItemLe_total (a b : IndexItem) :
    IndexItem.le a b || IndexItem.le b a := by
  unfold IndexItem.le
  rcases lt_trichotomy a.path b.path with hp | hp | hp
  · simp [hp]
  · rcases lt_trichotomy a.name b.name with hn | hn | hn
    · simp [hp, hn]
    · rcases le_total a.description b.description with hd | hd
      · simp [hp, hn, hd]
      · simp [hp, hn, hd]
    · simp [hp.symm, hn]
  · simp [hp]

theorem indexItemLe_antisymm (a b : IndexItem) :
    IndexItem.le a b → IndexItem.le b a → a = b := by
  unfold IndexItem.le
  simp only [decide_eq_true_eq]
  rintro (h₁ | ⟨hp₁, h₁⟩) (h₂ | ⟨hp₂, h₂⟩)
  · exact absurd h₂ (lt_asymm h₁)
  · exact absurd h₁ (hp₂ ▸ lt_irrefl _)
  · exact absurd h₂ (hp₁ ▸ lt_irrefl _)
  · rcases h₁ with h₁ | ⟨hn₁, h₁⟩ <;> rcases h₂ with h₂ | ⟨hn₂, h₂⟩
    · exact absurd h₂ (lt_asymm h₁)
    · exact absurd h₁ (hn₂ ▸ lt_irrefl _)
    · exact absurd h₂ (hn₁ ▸ lt_irrefl _)
    · cases a; cases b
      simp only at hp₁ hn₁ h₁ h₂
      simp [hp₁, hn₁, le_antisymm h₁ h₂]

/-- Rust `Vec::dedup`: remove *consecutive* duplicates. -/
def vecDedup {α : Type} [DecidableEq α] : List α → List α
  | [] => []
  | [a] => [a]
  | a :: b :: rest =>
    if a = b then vecDedup (b :: rest) else a :: vecDedup (b :: rest)

theorem mem_vecDedup {α : Type} [DecidableEq α] (x : α) :
    ∀ l : List α, x ∈ vecDedup l ↔ x ∈ l := by
  intro l
  induction l with
  | nil => simp [vecDedup]
  | cons a l ih =>
    match l with
    | [] => simp [vecDedup]
    | b :: rest =>
      by_cases hab : a = b
      · subst hab
        rw [show vecDedup (a :: a :: rest) = vecDedup (a :: rest) from by
          simp [vecDedup]]
        rw [ih]
        simp
      · rw [show vecDedup (a :: b :: rest) = a :: vecDedup (b :: rest) from by
          simp [vecDedup, hab]]
        simp only [List.mem_cons] at ih ⊢
        rw [ih]

theorem vecDedup_sublist {α : Type} [DecidableEq α] :
    ∀ l : List α, (vecDedup l).Sublist l := by
  intro l
  induction l with
  | nil => simp [vecDedup]
  | cons a l ih =>
    match l with
    | [] => simp [vecDedup]
    | b :: rest =>
      by_cases hab : a = b
      · subst hab
        rw [show vecDedup (a :: a :: rest) = vecDedup (a :: rest) from by
          simp [vecDedup]]
        exact ih.cons a
      · rw [show vecDedup (a :: b :: rest) = a :: vecDedup (b :: rest) from by
          simp [vecDedup, hab]]
        exact ih.cons₂ a

theorem vecDedup_nodup :
    ∀ l : List IndexItem,
      l.Pairwise (fun x y => IndexItem.le x y = true) → (vecDedup l).Nodup := by
  intro l
  induction l with
  | nil => intro _; simp [vecDedup]
  | cons a l ih =>
    intro hp
    match l with
    | [] => simp [vecDedup]
    | b :: rest =>
      rw [List.pairwise_cons] at hp
      obtain ⟨ha, hp⟩ := hp
      by_cases hab : a = b
      · subst hab
        rw [show vecDedup (a :: a :: rest) = vecDedup (a :: rest) from by
          simp [vecDedup]]
        exact ih hp
      · rw [show vecDedup (a :: b :: rest) = a :: vecDedup (b :: rest) from by
          simp [vecDedup, hab]]
        refine List.Nodup.cons ?_ (ih hp)
        intro hmem
        rw [mem_vecDedup] at hmem
        rcases List.mem_cons.mp hmem with h | h
        · exact hab h
        · have hab' : IndexItem.le a b = true := ha b (List.mem_cons_self b rest)
          have hba : IndexItem.le b a = true := by
            rw [List.pairwise_cons] at hp
            have hba' : IndexItem.le b a = true := hp.1 a h
            exact hba'
          exact hab (indexItemLe_antisymm a b hab' hba)

theorem vecDedup_pairwise {α : Type} [DecidableEq α] {R : α → α → Prop}
    (l : List α) (h : l.Pairwise R) : (vecDedup l).Pairwise R :=
  List.Pairwise.sublist (vecDedup_sublist l) h

/-- The derived `IndexItem` order as a decidable relation (for sorting). -/
def itemLeProp (x y : IndexItem) : Prop := IndexItem.le x y = true

instance : DecidableRel itemLeProp := fun x y => by
  unfold itemLeProp
  infer_instance

instance : IsTrans IndexItem itemLeProp := ⟨indexItemLe_trans⟩

instance : IsTotal IndexItem itemLeProp :=
  ⟨fun a b => Bool.or_eq_true_iff.mp (indexItemLe_total a b)⟩

/-- Sequencing an `Option`-valued function over a list (the behaviour of the
Rust loops: the first failure aborts). -/
def optMapM {α β : Type} (f : α → Option β) : List α → Option (List β)
  | [] => some []
  | a :: l => do
    let b ← f a
    let bs ← optMapM f l
    pure (b :: bs)

theorem optMapM_map {α β γ : Type} (g : α → β) (f : β → Option γ)
    (l : List α) : optMapM f (l.map g) = optMapM (fun a => f (g a)) l := by
  induction l with
  | nil => rfl
  | cons a l ih => simp [optMapM, ih]

/-- The inner item loop of `Index::find` for one crate: the running `path`
starts at the crate name and is replaced by each item's own non-empty `path`;
associated types (`ty == 16`) are skipped (after the path update); a parent
index is resolved by direct indexing into `paths` — out of range is a panic,
modelled as `none`; an item whose reconstructed full name ends with the
(already `"::"`-prefixed) keyword yields an `IndexItem`. -/
def findInCrate (kw : Str) (paths : List (Nat × Str)) :
    Str → List ItemData → Option (List IndexItem)
  | _, [] => some []
  | path, item :: rest =>
    let path' := if item.path.isEmpty then path else item.path
    if item.ty == 16 then findInCrate kw paths path' rest
    else
      match item.parent with
      | some idx =>
        match paths[idx]? with
        | none => none
        | some p =>
          let full_path := path' ++ sepStr ++ p.2
          let full_name := full_path ++ sepStr ++ item.name
          (findInCrate kw paths path' rest).map (fun ms =>
            (if kw.isSuffixOf full_name then
              [{ path := full_path, name := item.name,
                 description := item.desc }]
             else []) ++ ms)
      | none =>
        let full_name := path' ++ sepStr ++ item.name
        (findInCrate kw paths path' rest).map (fun ms =>
          (if kw.isSuffixOf full_name then
            [{ path := path', name := item.name, description := item.desc }]
           else []) ++ ms)

/-- `index.rs`: `Index::find` — prefix the keyword with `"::"`, collect the
matches of every crate (the crate map is modelled as an association list),
then `sort_unstable` and `dedup`.  A panic on an out-of-range parent index is
modelled as `none`. -/
def Index.find (crates : List (Str × CrateData)) (keyword : Str) :
    Option (List IndexItem) :=
  (optMapM (fun c =>
      findInCrate (sepStr ++ keyword) c.2.paths c.1 c.2.items) crates).map
    (fun lists => vecDedup (List.insertionSort itemLeProp lists.flatten))

/-- The owning path the specification attributes to item `k`: the last
non-empty `path` among the items up to and including `k`, or the crate name
if there is none. -/
def attributedPath (krate : Str) (items : List ItemData) (k : Nat) : Str :=
  ((items.take (k + 1)).map (fun i => i.path)).foldl
    (fun acc p => if p.isEmpty then acc else p) krate

/-- The specification's per-item match decision, given the item's attributed
owning path: associated types never match; a parent index is resolved through
the `paths` table (out of range faults); otherwise the item matches iff its
full dotted name ends with the `"::"`-prefixed keyword. -/
def specMatch (kw : Str) (paths : List (Nat × Str)) (ownPath : Str)
    (item : ItemData) : Option (List IndexItem) :=
  if item.ty == 16 then some []
  else
    match item.parent with
    | some idx =>
      (paths[idx]?).map (fun p =>
        let full_path := ownPath ++ sepStr ++ p.2
        if kw.isSuffixOf (full_path ++ sepStr ++ item.name) then
          [{ path := full_path, name := item.name, description := item.desc }]
        else [])
    | none =>
      some (if kw.isSuffixOf (ownPath ++ sepStr ++ item.name) then
        [{ path := ownPath, name := item.name, description := item.desc }]
      else [])

/-- The specification's view of one crate's matches: every item is decided
independently by `specMatch` at its attributed path. -/
def crateFindSpec (kw : Str) (paths : List (Nat × Str)) (base : Str)
    (items : List ItemData) : Option (List IndexItem) :=
  (optMapM (fun k =>
    (items[k]?).bind (specMatch kw paths (attributedPath base items k)))
    (List.range items.length)).map List.flatten

/-- The specification's view of `Index::find`. -/
def Index.findSpec (crates : List (Str × CrateData)) (keyword : Str) :
    Option (List IndexItem) :=
  (optMapM (fun c =>
      crateFindSpec (sepStr ++ keyword) c.2.paths c.1 c.2.items) crates).map
    (fun lists => vecDedup (List.insertionSort itemLeProp lists.flatten))

theorem attributedPath_zero (base : Str) (item : ItemData)
    (items : List ItemData) :
    attributedPath base (item :: items) 0 =
      if item.path.isEmpty then base else item.path := by
  simp [attributedPath]

theorem attributedPath_succ (base : Str) (item : ItemData)
    (items : List ItemData) (k : Nat) :
    attributedPath base (item :: items) (k + 1) =
      attributedPath (if item.path.isEmpty then base else item.path) items k := by
  simp [attributedPath, List.foldl_cons]

theorem crateFindSpec_cons (kw : Str) (paths : List (Nat × Str)) (base : Str)
    (item : ItemData) (rest : List ItemData) :
    crateFindSpec kw paths base (item :: rest) =
      (specMatch kw paths (if item.path.isEmpty then base else item.path)
        item).bind (fun m0 =>
          (crateFindSpec kw paths
            (if item.path.isEmpty then base else item.path) rest).map
            (fun ms => m0 ++ ms)) := by
  unfold crateFindSpec
  rw [show List.range (item :: rest).length =
    0 :: (List.range rest.length).map (· + 1) from by
      simp [List.range_succ_eq_map]]
  rw [show optMapM (fun k => (item :: rest)[k]?.bind
      (specMatch kw paths (attributedPath base (item :: rest) k)))
      (0 :: (List.range rest.length).map (· + 1)) =
    do
      let b ← ((item :: rest)[0]?).bind
        (specMatch kw paths (attributedPath base (item :: rest) 0))
      let bs ← optMapM (fun k => (item :: rest)[k]?.bind
        (specMatch kw paths (attributedPath base (item :: rest) k)))
        ((List.range rest.length).map (· + 1))
      pure (b :: bs) from rfl]
  rw [optMapM_map]
  simp only [List.getElem?_cons_zero, List.getElem?_cons_succ,
    attributedPath_zero, attributedPath_succ, Option.some_bind]
  rcases hm : specMatch kw paths
      (if item.path.isEmpty then base else item.path) item with _ | m0
  · rfl
  · simp only [Option.some_bind]
    rcases hms : optMapM (fun k => rest[k]?.bind
        (specMatch kw paths
          (attributedPath (if item.path.isEmpty then base else item.path)
            rest k))) (List.range rest.length) with _ | ms
    · rfl
    · simp

theorem findInCrate_eq_spec (kw : Str) (paths : List (Nat × Str)) :
    ∀ (items : List ItemData) (base : Str),
      findInCrate kw paths base items = crateFindSpec kw paths base items := by
  intro items
  induction items with
  | nil => intro base; rfl
  | cons item rest ih =>
    intro base
    rw [crateFindSpec_cons]
    rw [← ih (if item.path.isEmpty then base else item.path)]
    show (if item.ty == 16 then
        findInCrate kw paths (if item.path.isEmpty then base else item.path)
          rest
      else
        match item.parent with
        | some idx =>
          match paths[idx]? with
          | none => none
          | some p =>
            (findInCrate kw paths
              (if item.path.isEmpty then base else item.path) rest).map
              (fun ms =>
                (if kw.isSuffixOf
                    ((if item.path.isEmpty then base else item.path) ++
                      sepStr ++ p.2 ++ sepStr ++ item.name) then
                  [{ path := (if item.path.isEmpty then base else item.path)
                       ++ sepStr ++ p.2,
                     name := item.name, description := item.desc }]
                 else []) ++ ms)
        | none =>
          (findInCrate kw paths
            (if item.path.isEmpty then base else item.path) rest).map
            (fun ms =>
              (if kw.isSuffixOf
                  ((if item.path.isEmpty then base else item.path) ++ sepStr
                    ++ item.name) then
                [{ path := if item.path.isEmpty then base else item.path,
                   name := item.name, description := item.desc }]
               else []) ++ ms)) = _
    unfold specMatch
    by_cases hty : item.ty == 16
    · rw [if_pos hty, if_pos hty]
      rcases hrec : findInCrate kw paths
          (if item.path.isEmpty then base else item.path) rest with _ | ms
      · rfl
      · simp
    · rw [if_neg hty, if_neg hty]
      rcases hpar : item.parent with _ | idx
      · rcases hrec : findInCrate kw paths
            (if item.path.isEmpty then base else item.path) rest with _ | ms
        · rfl
        · simp
      · rcases hidx : paths[idx]? with _ | p <;>
          rcases hrec : findInCrate kw paths
              (if item.path.isEmpty then base else item.path) rest with _ | ms <;>
          simp [hidx, hrec]

theorem find_eq_findSpec (crates : List (Str × CrateData)) (keyword : Str) :
    Index.find crates keyword = Index.findSpec crates keyword := by
  unfold Index.find Index.findSpec
  rw [show (fun c : Str × CrateData =>
      findInCrate (sepStr ++ keyword) c.2.paths c.1 c.2.items) =
      (fun c : Str × CrateData =>
      crateFindSpec (sepStr ++ keyword) c.2.paths c.1 c.2.items) from by
    funext c
    exact findInCrate_eq_spec (sepStr ++ keyword) c.2.paths c.2.items c.1]

theorem optMapM_eq_none {α β : Type} (f : α → Option β) :
    ∀ l : List α, optMapM f l = none ↔ ∃ a ∈ l, f a = none := by
  intro l
  induction l with
  | nil => simp [optMapM]
  | cons a l ih =>
    show ((f a).bind fun b => (optMapM f l).bind fun bs => some (b :: bs))
        = none ↔ _
    rcases ha : f a with _ | b
    · rw [Option.none_bind]
      simp only [true_iff]
      exact ⟨a, List.mem_cons_self a l, ha⟩
    · rw [Option.some_bind]
      rcases hl : optMapM f l with _ | bs
      · rw [Option.none_bind]
        simp only [true_iff]
        obtain ⟨a', ha', hfa'⟩ := ih.mp hl
        exact ⟨a', List.mem_cons_of_mem a ha', hfa'⟩
      · rw [Option.some_bind]
        constructor
        · intro h; cases h
        · rintro ⟨a', ha', hfa'⟩
          rcases List.mem_cons.mp ha' with rfl | ha'
          · rw [ha] at hfa'; cases hfa'
          · rw [ih.mpr ⟨a', ha', hfa'⟩] at hl; cases hl

theorem optMapM_some_forall {α β : Type} (f : α → Option β) :
    ∀ (l : List α) (bs : List β), optMapM f l = some bs →
      ∀ a ∈ l, ∃ b, f a = some b := by
  intro l
  induction l with
  | nil => intro bs _ a ha; cases ha
  | cons a l ih =>
    intro bs h a' ha'
    simp only [optMapM, optBind_eq_some, Option.pure_def,
      Option.some.injEq] at h
    obtain ⟨b, hb, rest, hrest, _⟩ := h
    rcases List.mem_cons.mp ha' with rfl | ha'
    · exact ⟨b, hb⟩
    · exact ih rest hrest a' ha'

theorem optMapM_flatten_mem {α β : Type} (f : α → Option (List β)) :
    ∀ (l : List α) (bs : List (List β)), optMapM f l = some bs →
      ∀ x : β, x ∈ bs.flatten ↔ ∃ a ∈ l, ∃ la, f a = some la ∧ x ∈ la := by
  intro l
  induction l with
  | nil =>
    intro bs h x
    cases h
    simp
  | cons a l ih =>
    intro bs h x
    simp only [optMapM, optBind_eq_some, Option.pure_def,
      Option.some.injEq] at h
    obtain ⟨b, hb, rest, hrest, hbs⟩ := h
    subst hbs
    simp only [List.flatten_cons, List.mem_append]
    rw [ih rest hrest x]
    constructor
    · rintro (hx | ⟨a', ha', la, hla, hx⟩)
      · exact ⟨a, List.mem_cons_self a l, b, hb, hx⟩
      · exact ⟨a', List.mem_cons_of_mem a ha', la, hla, hx⟩
    · rintro ⟨a', ha', la, hla, hx⟩
      rcases List.mem_cons.mp ha' with rfl | ha'
      · rw [hb] at hla
        cases hla
        exact Or.inl hx
      · exact Or.inr ⟨a', ha', la, hla, hx⟩

theorem findInCrate_none_iff (kw : Str) (paths : List (Nat × Str)) :
    ∀ (items : List ItemData) (base : Str),
      findInCrate kw paths base items = none ↔
        ∃ item ∈ items, item.ty ≠ 16 ∧
          ∃ idx, item.parent = some idx ∧ paths[idx]? = none := by
  intro items
  induction items with
  | nil => intro base; simp [findInCrate]
  | cons item rest ih =>
    intro base
    show (if item.ty == 16 then
        findInCrate kw paths (if item.path.isEmpty then base else item.path)
          rest
      else
        match item.parent with
        | some idx =>
          match paths[idx]? with
          | none => none
          | some p =>
            (findInCrate kw paths
              (if item.path.isEmpty then base else item.path) rest).map
              (fun ms =>
                (if kw.isSuffixOf
                    ((if item.path.isEmpty then base else item.path) ++
                      sepStr ++ p.2 ++ sepStr ++ item.name) then
                  [{ path := (if item.path.isEmpty then base else item.path)
                       ++ sepStr ++ p.2,
                     name := item.name, description := item.desc }]
                 else []) ++ ms)
        | none =>
          (findInCrate kw paths
            (if item.path.isEmpty then base else item.path) rest).map
            (fun ms =>
              (if kw.isSuffixOf
                  ((if item.path.isEmpty then base else item.path) ++ sepStr
                    ++ item.name) then
                [{ path := if item.path.isEmpty then base else item.path,
                   name := item.name, description := item.desc }]
               else []) ++ ms)) = none ↔ _
    by_cases hty : item.ty == 16
    · rw [if_pos hty]
      rw [ih (if item.path.isEmpty then base else item.path)]
      have hty' : item.ty = 16 := by simpa using hty
      constructor
      · rintro ⟨i, hi, h⟩
        exact ⟨i, List.mem_cons_of_mem item hi, h⟩
      · rintro ⟨i, hi, hne, h⟩
        rcases List.mem_cons.mp hi with rfl | hi
        · exact absurd hty' hne
        · exact ⟨i, hi, hne, h⟩
    · rw [if_neg hty]
      have hty' : item.ty ≠ 16 := by simpa using hty
      rcases hpar : item.parent with _ | idx
      · rcases hrec : findInCrate kw paths
            (if item.path.isEmpty then base else item.path) rest with _ | ms
        · simp only [Option.map_none', true_iff]
          obtain ⟨i, hi, h⟩ :=
            (ih (if item.path.isEmpty then base else item.path)).mp hrec
          exact ⟨i, List.mem_cons_of_mem item hi, h⟩
        · simp only [Option.map_some']
          constructor
          · intro h; cases h
          · rintro ⟨i, hi, hne, idx, hpi, hnone⟩
            rcases List.mem_cons.mp hi with rfl | hi
            · rw [hpar] at hpi; cases hpi
            · have := (ih (if item.path.isEmpty then base else
                item.path)).mpr ⟨i, hi, hne, idx, hpi, hnone⟩
              rw [this] at hrec; cases hrec
      · rcases hidx : paths[idx]? with _ | p
        · simp only [hidx, true_iff]
          exact ⟨item, List.mem_cons_self item rest, hty', idx, hpar, hidx⟩
        · simp only [hidx]
          rcases hrec : findInCrate kw paths
              (if item.path.isEmpty then base else item.path) rest with _ | ms
          · simp only [Option.map_none', true_iff]
            obtain ⟨i, hi, h⟩ :=
              (ih (if item.path.isEmpty then base else item.path)).mp hrec
            exact ⟨i, List.mem_cons_of_mem item hi, h⟩
          · simp only [Option.map_some']
            constructor
            · intro h; cases h
            · rintro ⟨i, hi, hne, idx', hpi, hnone⟩
              rcases List.mem_cons.mp hi with rfl | hi
              · rw [hpar] at hpi
                cases hpi
                rw [hidx] at hnone
                cases hnone
              · have := (ih (if item.path.isEmpty then base else
                  item.path)).mpr ⟨i, hi, hne, idx', hpi, hnone⟩
                rw [this] at hrec; cases hrec

/-- **C2, amended.** `Index::find` does *not* tolerate an out-of-range parent
index: it resolves `parent` by direct indexing into the `paths` table, so it
returns normally exactly when every non-associated-type item's decoded parent
index addresses an existing `paths` entry, and it faults (panics, modelled as
`none`) exactly when some crate contains a non-associated-type item whose
parent index is out of range. -/
theorem find_faults_on_out_of_range_parent :
    ∀ (crates : List (Str × CrateData)) (keyword : Str),
      Index.find crates keyword = none ↔
        ∃ c ∈ crates, ∃ item ∈ c.2.items, item.ty ≠ 16 ∧
          ∃ idx, item.parent = some idx ∧ c.2.paths.length ≤ idx := by
  intro crates keyword
  unfold Index.find
  rw [Option.map_eq_none']
  rw [optMapM_eq_none]
  constructor
  · rintro ⟨c, hc, hfc⟩
    obtain ⟨item, hitem, hne, idx, hpar, hnone⟩ :=
      (findInCrate_none_iff (sepStr ++ keyword) c.2.paths c.2.items c.1).mp hfc
    exact ⟨c, hc, item, hitem, hne, idx, hpar, by
      simpa using List.getElem?_eq_none_iff.mp hnone⟩
  · rintro ⟨c, hc, item, hitem, hne, idx, hpar, hlen⟩
    refine ⟨c, hc, ?_⟩
    exact (findInCrate_none_iff (sepStr ++ keyword) c.2.paths c.2.items
      c.1).mpr ⟨item, hitem, hne, idx, hpar,
        List.getElem?_eq_none_iff.mpr (by simpa using hlen)⟩

/-- A one-crate index whose single item has parent index `5` while the
`paths` table is empty. -/
def c2Crates : List (Str × CrateData) :=
  [("pkg".toList,
    { items := [{ ty := 3, name := "Foo".toList, path := [],
                  desc := [], parent := some 5 }]
      paths := [] })]

/-- **C2, counterexample.** On the concrete index `c2Crates`, whose single
(non-associated-type) item carries the out-of-range parent index `5`,
`Index::find` faults — modelled as `none` — instead of treating the bad
index as "no parent" and returning normally. -/
theorem find_faults_on_out_of_range_parent_counterexample :
    Index.find c2Crates "Foo".toList = none ∧
    Option.isNone (none : Option (List IndexItem)) = true :=
  ⟨by rfl, rfl⟩

/-- Witness for the amended C2 theorem: applying it to `c2Crates` shows the
fault is exactly the predicted out-of-range parent. -/
theorem find_faults_on_out_of_range_parent_witness :
    ∃ c ∈ c2Crates, ∃ item ∈ c.2.items, item.ty ≠ 16 ∧
      ∃ idx, item.parent = some idx ∧ c.2.paths.length ≤ idx :=
  (find_faults_on_out_of_range_parent c2Crates "Foo".toList).mp (by rfl)
theorem specMatch_some_mem (kw : Str) (paths : List (Nat × Str)) (own : Str)
    (item : ItemData) (lk : List IndexItem) (x : IndexItem)
    (h : specMatch kw paths own item = some lk) :
    x ∈ lk ↔ (item.ty ≠ 16 ∧
      ∃ full_path : Str,
        ((item.parent = none ∧ full_path = own) ∨
         (∃ idx p, item.parent = some idx ∧ paths[idx]? = some p ∧
           full_path = own ++ sepStr ++ p.2)) ∧
        kw.isSuffixOf (full_path ++ sepStr ++ item.name) = true ∧
        x = { path := full_path, name := item.name,
              description := item.desc }) := by
  unfold specMatch at h
  by_cases hty : item.ty == 16
  · rw [if_pos hty] at h
    cases h
    simp only [List.not_mem_nil, false_iff, not_and]
    intro hne
    exact absurd (by simpa using hty) hne
  · rw [if_neg hty] at h
    have hty2 : item.ty ≠ 16 := by simpa using hty
    rcases hpar : item.parent with _ | idx
    · rw [hpar] at h
      have h2 : (if kw.isSuffixOf (own ++ sepStr ++ item.name) then
          [{ path := own, name := item.name, description := item.desc }]
        else ([] : List IndexItem)) = lk := Option.some.inj h
      subst h2
      by_cases hsuf : kw.isSuffixOf (own ++ sepStr ++ item.name) = true
      · simp [hsuf, hty2]
      · simp [hsuf, hty2]
    · rw [hpar] at h
      have h3 : Option.map (fun p : Nat × Str =>
          if kw.isSuffixOf (own ++ sepStr ++ p.2 ++ sepStr ++ item.name) then
            [{ path := own ++ sepStr ++ p.2, name := item.name,
               description := item.desc }]
          else ([] : List IndexItem)) paths[idx]? = some lk := h
      clear h
      rcases hidx : paths[idx]? with _ | p
      · rw [hidx] at h3
        simp at h3
      · rw [hidx] at h3
        have h2 : (if kw.isSuffixOf
            (own ++ sepStr ++ p.2 ++ sepStr ++ item.name) then
            [{ path := own ++ sepStr ++ p.2, name := item.name,
               description := item.desc }]
          else ([] : List IndexItem)) = lk := Option.some.inj h3
        subst h2
        by_cases hsuf : kw.isSuffixOf
            (own ++ sepStr ++ p.2 ++ sepStr ++ item.name) = true
        · rw [if_pos hsuf]
          simp only [List.mem_singleton]
          constructor
          · intro hx
            exact ⟨hty2, own ++ sepStr ++ p.2,
              Or.inr ⟨idx, p, rfl, hidx, rfl⟩, hsuf, hx⟩
          · rintro ⟨-, fp, hfp, hs, hx⟩
            rcases hfp with ⟨hpi, -⟩ | ⟨idx2, p2, hpi, hpi2, rfl⟩
            · exact Option.noConfusion hpi
            · have hi : idx = idx2 := Option.some.inj hpi
              subst hi
              rw [hidx] at hpi2
              have hp : p = p2 := Option.some.inj hpi2
              subst hp
              exact hx
        · rw [if_neg hsuf]
          simp only [List.not_mem_nil, false_iff]
          rintro ⟨-, fp, hfp, hs, hx⟩
          rcases hfp with ⟨hpi, -⟩ | ⟨idx2, p2, hpi, hpi2, rfl⟩
          · exact Option.noConfusion hpi
          · have hi : idx = idx2 := Option.some.inj hpi
            subst hi
            rw [hidx] at hpi2
            have hp : p = p2 := Option.some.inj hpi2
            subst hp
            exact hsuf hs

theorem crateFindSpec_mem (kw : Str) (paths : List (Nat × Str)) (base : Str)
    (items : List ItemData) (lc : List IndexItem)
    (h : crateFindSpec kw paths base items = some lc) (x : IndexItem) :
    x ∈ lc ↔ ∃ (k : Nat) (item : ItemData), items[k]? = some item ∧
      item.ty ≠ 16 ∧
      ∃ full_path : Str,
        ((item.parent = none ∧ full_path = attributedPath base items k) ∨
         (∃ idx p, item.parent = some idx ∧ paths[idx]? = some p ∧
           full_path = attributedPath base items k ++ sepStr ++ p.2)) ∧
        kw.isSuffixOf (full_path ++ sepStr ++ item.name) = true ∧
        x = { path := full_path, name := item.name,
              description := item.desc } := by
  unfold crateFindSpec at h
  rw [Option.map_eq_some'] at h
  obtain ⟨inner, hinner, hlc⟩ := h
  subst hlc
  rw [optMapM_flatten_mem _ _ _ hinner x]
  constructor
  · rintro ⟨k, hk, lk, hlk, hx⟩
    rw [Option.bind_eq_some] at hlk
    obtain ⟨item, hitem, hspec⟩ := hlk
    obtain ⟨hne, fp, hfp, hs, hxv⟩ :=
      (specMatch_some_mem kw paths (attributedPath base items k) item lk x
        hspec).mp hx
    exact ⟨k, item, hitem, hne, fp, hfp, hs, hxv⟩
  · rintro ⟨k, item, hitem, hne, fp, hfp, hs, hxv⟩
    have hk : k ∈ List.range items.length :=
      List.mem_range.mpr (List.getElem?_eq_some.mp hitem).1
    obtain ⟨lk, hlk⟩ := optMapM_some_forall _ _ _ hinner k hk
    refine ⟨k, hk, lk, hlk, ?_⟩
    rw [Option.bind_eq_some] at hlk
    obtain ⟨item', hitem', hspec⟩ := hlk
    rw [hitem] at hitem'
    injection hitem' with hitem'
    subst hitem'
    exact (specMatch_some_mem kw paths (attributedPath base items k) item lk x
      hspec).mpr ⟨hne, fp, hfp, hs, hxv⟩

/-- The claim-side match predicate for C4: `x` is among the search hits for
`keyword` iff some crate has an item (not an associated type) whose
reconstructed full dotted name — the item's attributed owning path, the
resolved parent segment if any, then the item name — ends with
`"::" + keyword`, and `x` is the hit built from it. -/
def matchesSpec (crates : List (Str × CrateData)) (keyword : Str)
    (x : IndexItem) : Prop :=
  ∃ c ∈ crates, ∃ (k : Nat) (item : ItemData),
    c.2.items[k]? = some item ∧ item.ty ≠ 16 ∧
    ∃ full_path : Str,
      ((item.parent = none ∧ full_path = attributedPath c.1 c.2.items k) ∨
       (∃ idx p, item.parent = some idx ∧ c.2.paths[idx]? = some p ∧
         full_path = attributedPath c.1 c.2.items k ++ sepStr ++ p.2)) ∧
      (sepStr ++ keyword).isSuffixOf (full_path ++ sepStr ++ item.name)
        = true ∧
      x = { path := full_path, name := item.name, description := item.desc }

/-- **C4.** Whenever `Index::find` returns (does not fault), the returned
vector is sorted under the derived lexicographic order, contains no duplicate
entries, and contains exactly the items whose reconstructed full dotted name
ends (case-sensitively, string equality being character equality) with
`"::"` followed by the keyword — associated-type entries (`ty == 16`) being
excluded even on an exact suffix match. -/
theorem find_results_sorted_dedup_matches :
    ∀ (crates : List (Str × CrateData)) (keyword : Str)
      (res : List IndexItem),
      Index.find crates keyword = some res →
      res.Pairwise (fun x y => IndexItem.le x y = true) ∧ res.Nodup ∧
      (∀ x : IndexItem, x ∈ res ↔ matchesSpec crates keyword x) := by
  intro crates keyword res h
  rw [find_eq_findSpec] at h
  unfold Index.findSpec at h
  rw [Option.map_eq_some'] at h
  obtain ⟨lists, hlists, hres⟩ := h
  subst hres
  have hsorted := List.sorted_insertionSort itemLeProp lists.flatten
  refine ⟨vecDedup_pairwise _ hsorted, vecDedup_nodup _ hsorted, ?_⟩
  intro x
  rw [mem_vecDedup, List.mem_insertionSort]
  rw [optMapM_flatten_mem _ _ _ hlists x]
  unfold matchesSpec
  constructor
  · rintro ⟨c, hc, lc, hlc, hx⟩
    obtain ⟨k, item, hitem, hne, fp, hfp, hs, hxv⟩ :=
      (crateFindSpec_mem _ _ _ _ _ hlc x).mp hx
    exact ⟨c, hc, k, item, hitem, hne, fp, hfp, hs, hxv⟩
  · rintro ⟨c, hc, k, item, hitem, hne, fp, hfp, hs, hxv⟩
    obtain ⟨lc, hlc⟩ := optMapM_some_forall _ _ _ hlists c hc
    refine ⟨c, hc, lc, hlc, ?_⟩
    exact (crateFindSpec_mem _ _ _ _ _ hlc x).mpr
      ⟨k, item, hitem, hne, fp, hfp, hs, hxv⟩

/-- A one-crate index with the single item `pkg::mod::Foo`. -/
def c4Crates : List (Str × CrateData) :=
  [("pkg".toList,
    { items := [{ ty := 3, name := "Foo".toList, path := "pkg::mod".toList,
                  desc := [], parent := none }]
      paths := [] })]

/-- The hit `Index::find` produces for `"Foo"` on `c4Crates`. -/
def c4Hit : IndexItem :=
  { path := "pkg::mod".toList, name := "Foo".toList, description := [] }

/-- Witness for C4: applying the theorem to the concrete index `c4Crates` and
keyword `"Foo"` — the search returns exactly `[pkg::mod::Foo]`, sorted,
duplicate-free, and characterized by the match predicate. -/
theorem find_results_sorted_dedup_matches_witness :
    [c4Hit].Pairwise (fun x y => IndexItem.le x y = true) ∧
    [c4Hit].Nodup ∧
    (∀ x : IndexItem, x ∈ [c4Hit] ↔ matchesSpec c4Crates "Foo".toList x) :=
  find_results_sorted_dedup_matches c4Crates "Foo".toList [c4Hit] (by rfl)

/-- An item with the non-empty path `"m"`. -/
def c10ItemA : ItemData :=
  { ty := 3, name := "Foo".toList, path := "m".toList, desc := [],
    parent := none }

/-- An item with an empty path, which inherits the running path. -/
def c10ItemB : ItemData :=
  { ty := 3, name := "Bar".toList, path := [], desc := [], parent := none }

/-- **C10.** In `Index::find`, an item whose raw stored path is empty inherits
the owning path of the nearest preceding item of the same crate with a
non-empty path, or the crate name if there is none: `Index::find` computes
exactly the per-item specification in which item `k` is attributed the last
non-empty path among items `0..=k` (default: the crate name).  The concrete
pair shows the order dependence the claim asserts: with the same two items in
the two orders, the empty-path item `Bar` is attributed the path `"m"` when it
follows `Foo` (path `"m"`) and the crate name `"krate"` when it precedes it. -/
theorem find_path_inheritance :
    (∀ (crates : List (Str × CrateData)) (keyword : Str),
      Index.find crates keyword = Index.findSpec crates keyword) ∧
    Index.find [("krate".toList,
        { items := [c10ItemA, c10ItemB], paths := [] })] "Bar".toList =
      some [{ path := "m".toList, name := "Bar".toList, description := [] }] ∧
    Index.find [("krate".toList,
        { items := [c10ItemB, c10ItemA], paths := [] })] "Bar".toList =
      some [{ path := "krate".toList, name := "Bar".toList,
              description := [] }] ∧
    (("m".toList : Str) == "krate".toList) = false :=
  ⟨find_eq_findSpec, by rfl, by rfl, by rfl⟩

/-! ## C9: member element ids (`parser/html/mod.rs` and legacy `parser.rs`) -/

/-- `parser/html/mod.rs`: `get_item_id` — the short token used inside
generated element ids and file names. -/
def get_item_id : ItemType → Str
  | .Module => "mod".toList
  | .ExternCrate => "externcrate".toList
  | .Import => "import".toList
  | .Struct => "struct".toList
  | .Union => "union".toList
  | .Enum => "enum".toList
  | .Function => "fn".toList
  | .Typedef => "type".toList
  | .Static => "static".toList
  | .Trait => "trait".toList
  | .Impl => "impl".toList
  | .TyMethod => "tymethod".toList
  | .Method => "method".toList
  | .StructField => "structfield".toList
  | .Variant => "variant".toList
  | .Macro => "macro".toList
  | .Primitive => "primitive".toList
  | .AssocType => "associatedtype".toList
  | .Constant => "constant".toList
  | .AssocConst => "associatedconstant".toList
  | .ForeignType => "foreigntype".toList
  | .Keyword => "keyword".toList
  | .OpaqueTy => "opaque".toList
  | .ProcAttribute => "attr".toList
  | .ProcDerive => "derive".toList
  | .TraitAlias => "traitalias".toList

/-- `parser/html/mod.rs`: `get_member_selector(ty, name)` —
`format!("#{}\\.{}", get_item_id(ty), name)`, the CSS id selector for the
element id `<item-type-token>.<name>` (the dot is CSS-escaped). -/
def get_member_selector (ty : ItemType) (name : Str) : Str :=
  ['#'] ++ get_item_id ty ++ [bslashChar, '.'] ++ name

/-- Undo CSS escaping in a selector fragment: `\c` stands for the literal
character `c`. -/
def cssUnescape : Str → Str
  | [] => []
  | c :: rest =>
    if c = bslashChar then
      match rest with
      | d :: rest2 => d :: cssUnescape rest2
      | [] => []
    else c :: cssUnescape rest

/-- Rust `str::splitn(2, c)` as a list of at most two pieces. -/
def splitn2 (c : Char) (s : Str) : List Str :=
  match splitFirstOn c s with
  | (pre, none) => [pre]
  | (pre, some post) => [pre, post]

/-- `parser/html/mod.rs`: `get_id_part` (the id-string manipulation; the
source reads the node's `id` attribute first) —
`id.splitn(2, '.').nth(i).and_then(|s| s.splitn(2, '-').next())`: take part
`i` of the id split at the first dot, then cut at the first `'-'` to strip
the numeric collision suffix. -/
def get_id_part (id : Str) (i : Nat) : Option Str :=
  ((splitn2 '.' id)[i]?).bind (fun s => (splitn2 '-' s).head?)

/-- Legacy `parser.rs`: `get_member` locates a member only by the element id
`<name>.v` — the selector is `format!("#{}\\.v", name)`. -/
def legacy_get_member_selector (name : Str) : Str :=
  ['#'] ++ name ++ [bslashChar, '.', 'v']

/-- Legacy `parser.rs`: `get_id_part` —
`id.splitn(2, '.').nth(i)`, with no suffix stripping. -/
def legacy_get_id_part (id : Str) (i : Nat) : Option Str :=
  (splitn2 '.' id)[i]?

theorem cssUnescape_cons_ne (c : Char) (rest : Str) (hc : ¬ c = bslashChar) :
    cssUnescape (c :: rest) = c :: cssUnescape rest := by
  conv_lhs => rw [cssUnescape.eq_def]
  show (if c = bslashChar then
      match rest with
      | d :: rest2 => d :: cssUnescape rest2
      | [] => []
    else c :: cssUnescape rest) = c :: cssUnescape rest
  rw [if_neg hc]

theorem cssUnescape_cons_esc (d : Char) (rest : Str) :
    cssUnescape (bslashChar :: d :: rest) = d :: cssUnescape rest := by
  conv_lhs => rw [cssUnescape.eq_def]
  show (if bslashChar = bslashChar then
      match d :: rest with
      | d2 :: rest2 => d2 :: cssUnescape rest2
      | [] => []
    else bslashChar :: cssUnescape (d :: rest)) = d :: cssUnescape rest
  rw [if_pos rfl]

theorem cssUnescape_no_bslash (s : Str) (h : bslashChar ∉ s) :
    cssUnescape s = s := by
  induction s with
  | nil => rfl
  | cons c rest ih =>
    have hc : ¬ (c = bslashChar) := by
      intro hcc; subst hcc; exact h (List.mem_cons_self _ _)
    have hrest : bslashChar ∉ rest := fun hm => h (List.mem_cons_of_mem c hm)
    rw [cssUnescape_cons_ne c rest hc, ih hrest]

theorem cssUnescape_token (tok name : Str) (htok : bslashChar ∉ tok)
    (hname : bslashChar ∉ name) :
    cssUnescape (tok ++ [bslashChar, '.'] ++ name) = tok ++ ['.'] ++ name := by
  induction tok with
  | nil =>
    show cssUnescape (bslashChar :: '.' :: name) = '.' :: name
    rw [cssUnescape_cons_esc, cssUnescape_no_bslash name hname]
  | cons c rest ih =>
    have hc : ¬ (c = bslashChar) := by
      intro hcc; subst hcc; exact htok (List.mem_cons_self _ _)
    have hrest : bslashChar ∉ rest := fun hm => htok (List.mem_cons_of_mem c hm)
    have ih2 := ih hrest
    simp only [List.cons_append] at ih2 ⊢
    rw [cssUnescape_cons_ne _ _ hc, ih2]

theorem splitFirstOn_not_mem (c : Char) (s : Str) (h : c ∉ s) :
    splitFirstOn c s = (s, none) := by
  induction s with
  | nil => rfl
  | cons a rest ih =>
    have ha : a ≠ c := fun hc => h (hc ▸ List.mem_cons_self a rest)
    have hrest : c ∉ rest := fun hm => h (List.mem_cons_of_mem a hm)
    simp [splitFirstOn, ha, ih hrest]

theorem splitFirstOn_append (c : Char) (a b : Str) (h : c ∉ a) :
    splitFirstOn c (a ++ c :: b) = (a, some b) := by
  induction a with
  | nil => simp [splitFirstOn]
  | cons x rest ih =>
    have hx : x ≠ c := fun hc => h (hc ▸ List.mem_cons_self x rest)
    have hrest : c ∉ rest := fun hm => h (List.mem_cons_of_mem x hm)
    simp [splitFirstOn, hx, ih hrest]

theorem get_item_id_no_dot (ty : ItemType) : '.' ∉ get_item_id ty := by
  cases ty <;> decide

/-- **C9, amended.** In the `parser/html` scraper the claim holds: the member
selector addresses exactly the element id `<item-type-token>.<simple-name>`
(after undoing the CSS escape of the dot), and `get_id_part` recovers the
member's logical name from such an id, stripping a `-`-separated collision
suffix when the generator added one.  The legacy `parser.rs` scraper,
however, locates a member by the element id `<simple-name>.v` and does not
strip suffixes (see the counterexample). -/
theorem member_id_scheme_amended :
    (∀ (ty : ItemType) (name : Str), bslashChar ∉ name →
      cssUnescape ((get_member_selector ty name).drop 1) =
        get_item_id ty ++ ['.'] ++ name) ∧
    (∀ (ty : ItemType) (name suffix : Str), ('-' : Char) ∉ name →
      get_id_part (get_item_id ty ++ ['.'] ++ (name ++ '-' :: suffix)) 1 =
        some name ∧
      get_id_part (get_item_id ty ++ ['.'] ++ name) 1 = some name) := by
  constructor
  · intro ty name hname
    show cssUnescape (get_item_id ty ++ [bslashChar, '.'] ++ name) = _
    exact cssUnescape_token (get_item_id ty) name
      (by cases ty <;> decide) hname
  · intro ty name suffix hname
    constructor
    · unfold get_id_part splitn2
      rw [show get_item_id ty ++ ['.'] ++ (name ++ '-' :: suffix) =
        get_item_id ty ++ '.' :: (name ++ '-' :: suffix) from by simp]
      rw [splitFirstOn_append '.' (get_item_id ty) (name ++ '-' :: suffix)
        (get_item_id_no_dot ty)]
      simp only [List.getElem?_cons_succ, List.getElem?_cons_zero,
        Option.some_bind]
      rw [splitFirstOn_append '-' name suffix hname]
      rfl
    · unfold get_id_part splitn2
      rw [show get_item_id ty ++ ['.'] ++ name =
        get_item_id ty ++ '.' :: name from by simp]
      rw [splitFirstOn_append '.' (get_item_id ty) name
        (get_item_id_no_dot ty)]
      simp only [List.getElem?_cons_succ, List.getElem?_cons_zero,
        Option.some_bind]
      rw [splitFirstOn_not_mem '-' name hname]
      rfl

/-- **C9, counterexample.** The legacy scraper (`parser.rs`, wired into
`main.rs`) does not use the `<item-type-token>.<simple-name>` id: its member
selector for the member `as_node` addresses the element id `as_node.v`,
which differs from `method.as_node`; and its `get_id_part` does not strip a
numeric collision suffix: on the id `method.foo-1` it recovers `foo-1`, not
`foo`. -/
theorem member_id_scheme_counterexample :
    cssUnescape ((legacy_get_member_selector "as_node".toList).drop 1) =
      "as_node.v".toList ∧
    (("as_node.v".toList : Str) ==
      get_item_id ItemType.Method ++ ['.'] ++ "as_node".toList) = false ∧
    legacy_get_id_part "method.foo-1".toList 1 = some "foo-1".toList ∧
    (("foo-1".toList : Str) == "foo".toList) = false :=
  ⟨by rfl, by rfl, by rfl, by rfl⟩

/-- Witness for the amended C9 theorem at the member `as_node` of type
`Method` with collision suffix `1`. -/
theorem member_id_scheme_amended_witness :
    get_id_part (get_item_id ItemType.Method ++ ['.'] ++
        ("as_node".toList ++ '-' :: "1".toList)) 1 = some "as_node".toList ∧
    get_id_part (get_item_id ItemType.Method ++ ['.'] ++ "as_node".toList) 1 =
      some "as_node".toList :=
  member_id_scheme_amended.2 ItemType.Method "as_node".toList "1".toList
    (by decide)

/-! ## C8: the item-page and module-page scrapers (`parser.rs`, `doc.rs`) -/

/-- A parsed HTML node (the `kuchiki::NodeRef` tree): an element with tag,
attributes and children, or a text node. -/
inductive HtmlNode where
  | elem (tag : Str) (attrs : List (Str × Str)) (children : List HtmlNode)
  | text (s : Str)

/-- `parser.rs`: `get_node_attribute`. -/
def HtmlNode.getAttribute (n : HtmlNode) (name : Str) : Option Str :=
  match n with
  | .elem _ attrs _ => (attrs.find? (fun p => p.1 == name)).map (·.2)
  | .text _ => none

/-- `parser.rs`: `is_element(node, name)`. -/
def HtmlNode.is_element (n : HtmlNode) (tag : Str) : Bool :=
  match n with
  | .elem t _ _ => t == tag
  | .text _ => false

/-- Is this node an element at all (`as_element().is_some()`)? -/
def HtmlNode.isElemNode : HtmlNode → Bool
  | .elem _ _ _ => true
  | .text _ => false

/-- `parser.rs`: `has_class` — the `class` attribute split on spaces contains
the class. -/
def HtmlNode.hasCls (n : HtmlNode) (cls : Str) : Bool :=
  match n.getAttribute "class".toList with
  | some a => (splitAll ' ' a).any (fun s => s == cls)
  | none => false

/-- The children of a node (empty for text). -/
def HtmlNode.childrenOf : HtmlNode → List HtmlNode
  | .elem _ _ cs => cs
  | .text _ => []

/-- `first_child()`: the first child node, text included. -/
def HtmlNode.firstChild (n : HtmlNode) : Option HtmlNode := n.childrenOf.head?

/-- The `id` attribute. -/
def HtmlNode.idAttr (n : HtmlNode) : Option Str :=
  n.getAttribute "id".toList

/-- `next_sibling_element`: skip to the first element in a sibling list. -/
def dropToElem : List HtmlNode → List HtmlNode
  | [] => []
  | n :: rest => if n.isElemNode then n :: rest else dropToElem rest

mutual

/-- `select_first(document, "#<id>")`, in document order, returning the found
element together with its following siblings (which the sibling-chain walks
consume). -/
def findByIdIn (tid : Str) : HtmlNode → Option (HtmlNode × List HtmlNode)
  | .text _ => none
  | .elem _ _ cs => findByIdInList tid cs

/-- Helper of `findByIdIn` over a sibling list. -/
def findByIdInList (tid : Str) : List HtmlNode → Option (HtmlNode × List HtmlNode)
  | [] => none
  | n :: rest =>
    if n.idAttr == some tid then some (n, rest)
    else
      match findByIdIn tid n with
      | some r => some r
      | none => findByIdInList tid rest

end

mutual

/-- First descendant element satisfying a predicate (document order) — the
shape of the class-based `select_first` calls. -/
def findFirstBy (p : HtmlNode → Bool) : HtmlNode → Option HtmlNode
  | .text _ => none
  | .elem _ _ cs => findFirstByList p cs

/-- Helper of `findFirstBy` over a sibling list. -/
def findFirstByList (p : HtmlNode → Bool) : List HtmlNode → Option HtmlNode
  | [] => none
  | n :: rest =>
    if n.isElemNode && p n then some n
    else
      match findFirstBy p n with
      | some r => some r
      | none => findFirstByList p rest

end

mutual

/-- `kuchiki`'s `text_contents`: concatenate all descendant text. -/
def text_contents : HtmlNode → Str
  | .text t => t
  | .elem _ _ cs => textContentsList cs

/-- Helper of `text_contents`. -/
def textContentsList : List HtmlNode → Str
  | [] => []
  | n :: rest => text_contents n ++ textContentsList rest

end

/-- The newline character. -/
def nlChar : Char := Char.ofNat 10

/-- Does the accumulated text end with a newline? -/
def strEndsWithNl (s : Str) : Bool := s.getLast? == some nlChar

mutual

/-- `parser.rs`: `push_node_to_text` — concatenate text, inserting newlines
for `<br>`, `fmt-newline` and `docblock` nodes. -/
def push_node_to_text (s : Str) (n : HtmlNode) : Str :=
  let is_docblock := n.hasCls "docblock".toList
  let add_newline :=
    if n.is_element "br".toList then true
    else if n.hasCls "fmt-newline".toList || is_docblock then
      !s.isEmpty && !strEndsWithNl s
    else false
  let s := if add_newline then s ++ [nlChar] else s
  let s :=
    match n with
    | .text t => s ++ t
    | .elem _ _ _ => s
  let s :=
    match n with
    | .elem _ _ cs => push_list_to_text s cs
    | .text _ => s
  if is_docblock && !s.isEmpty && !strEndsWithNl s then s ++ [nlChar] else s

/-- Helper of `push_node_to_text` over the children. -/
def push_list_to_text (s : Str) : List HtmlNode → Str
  | [] => s
  | c :: cs => push_list_to_text (push_node_to_text s c) cs

end

/-- Trim leading and trailing whitespace. -/
def trimWs (s : Str) : Str :=
  ((s.dropWhile Char.isWhitespace).reverse.dropWhile Char.isWhitespace).reverse

/-- `parser.rs`: `node_to_text` — push and trim. -/
def node_to_text (n : HtmlNode) : Str := trimWs (push_node_to_text [] n)

/-- `doc.rs`: `ItemType::group_id` — the heading id of each member group. -/
def ItemType.group_id : ItemType → Str
  | .Module => "modules".toList
  | .ExternCrate => "extern-crates".toList
  | .Import => "imports".toList
  | .Struct => "structs".toList
  | .Enum => "enums".toList
  | .Function => "functions".toList
  | .Typedef => "types".toList
  | .Static => "statics".toList
  | .Trait => "traits".toList
  | .Impl => "impls".toList
  | .TyMethod => "required-methods".toList
  | .Method => "methods".toList
  | .StructField => "fields".toList
  | .Variant => "variants".toList
  | .Macro => "macros".toList
  | .Primitive => "primitives".toList
  | .AssocType => "associated-types".toList
  | .Constant => "constants".toList
  | .AssocConst => "associated-consts".toList
  | .Union => "unions".toList
  | .ForeignType => "foreign-types".toList
  | .Keyword => "keywords".toList
  | .OpaqueTy => "opaque-types".toList
  | .ProcAttribute => "proc-attributes".toList
  | .ProcDerive => "proc-derives".toList
  | .TraitAlias => "trait-aliases".toList

/-- `doc.rs`: `struct Doc` — name, type, optional description and definition
(modelled as their plain text), and the per-type member groups; a member
group (`doc.rs`: `MemberGroup`) is its optional title with its member
`Doc`s. -/
inductive Doc where
  | mk (name : Name) (ty : ItemType) (description : Option Str)
      (definition : Option Str)
      (groups : List (ItemType × List (Option Str × List Doc)))

/-- `doc.rs`: `MemberGroup { title, members }`. -/
abbrev MemberGroup := Option Str × List Doc

/-- The `groups` field of a `Doc`. -/
def Doc.groups : Doc → List (ItemType × List MemberGroup)
  | .mk _ _ _ _ g => g

/-- The `name` field of a `Doc`. -/
def Doc.docName : Doc → Name
  | .mk n _ _ _ _ => n

/-- The `definition` field of a `Doc`. -/
def Doc.definition : Doc → Option Str
  | .mk _ _ _ d _ => d

/-- `parser.rs`: `MemberDocs::push` — flush the accumulated (name,
definition) pair, with an optional description, into a new member `Doc`
(nothing is produced when no name was accumulated). -/
def mdPush (parent : Name) (ty : ItemType) (name : Option Str)
    (defn : Option Str) (desc : Option Str) : List Doc :=
  match name with
  | some n => [Doc.mk (parent.child n) ty desc defn []]
  | none => []

/-- `parser.rs`: `MemberDocs::into_member_group` — `None` when no member was
collected, otherwise the titled group. -/
def into_member_group (title : Option Str) (docs : List Doc) :
    Option MemberGroup :=
  if docs.isEmpty then none else some (title, docs)

/-- `parser.rs`: `MemberDocs::into_member_groups`. -/
def into_member_groups (title : Option Str) (docs : List Doc) :
    List MemberGroup :=
  (into_member_group title docs).toList

/-- `parser.rs`: `get_id_part(node, i)` (this legacy version does not strip
collision suffixes). -/
def get_id_part_node (n : HtmlNode) (i : Nat) : Option Str :=
  (n.idAttr).bind (fun id => legacy_get_id_part id i)

/-- The sibling-chain loop of `parser.rs`: `get_fields` — a
`span.structfield` flushes the previous member and starts a new one, a
`div.docblock` flushes with a description, any other `div` is skipped, and
any other element flushes and breaks. -/
def fieldsLoop (parent : Name) : List HtmlNode → Option Str → Option Str →
    List Doc
  | [], _, _ => []
  | el :: rest, name, defn =>
    if el.is_element "span".toList && el.hasCls "structfield".toList then
      mdPush parent .StructField name defn none ++
        fieldsLoop parent rest (get_id_part_node el 1) (some (node_to_text el))
    else if el.is_element "div".toList then
      if el.hasCls "docblock".toList then
        mdPush parent .StructField name defn (some (node_to_text el)) ++
          fieldsLoop parent rest none none
      else fieldsLoop parent rest name defn
    else mdPush parent .StructField name defn none

/-- `parser.rs`: `get_fields` — walk the siblings after the `#fields`
heading. -/
def get_fields (document : HtmlNode) (parent : Name) :
    ItemType × List MemberGroup :=
  let chain :=
    match findByIdIn (ItemType.group_id .StructField) document with
    | some (_, sibs) => dropToElem sibs
    | none => []
  (.StructField, into_member_groups none (fieldsLoop parent chain none none))

/-- The sibling-chain loop of `parser.rs`: `get_variants`. -/
def variantsLoop (parent : Name) : List HtmlNode → Option Str → Option Str →
    List Doc
  | [], _, _ => []
  | el :: rest, name, defn =>
    if el.is_element "div".toList then
      if el.hasCls "variant".toList then
        mdPush parent .Variant name defn none ++
          variantsLoop parent rest (get_id_part_node el 1)
            (some (node_to_text el))
      else if el.hasCls "docblock".toList then
        mdPush parent .Variant name defn (some (node_to_text el)) ++
          variantsLoop parent rest none none
      else variantsLoop parent rest name defn
    else mdPush parent .Variant name defn none

/-- `parser.rs`: `get_variants` — walk the siblings after the `#variants`
heading. -/
def get_variants (document : HtmlNode) (parent : Name) :
    ItemType × List MemberGroup :=
  let chain :=
    match findByIdIn (ItemType.group_id .Variant) document with
    | some (_, sibs) => dropToElem sibs
    | none => []
  (.Variant, into_member_groups none (variantsLoop parent chain none none))

/-- `it_select_first(element.children(), "code")`: the first direct `code`
child, as text. -/
def childCodeText (el : HtmlNode) : Option Str :=
  ((el.childrenOf.filter (fun c => c.is_element "code".toList)).head?).map
    node_to_text

/-- The child loop of `parser.rs`: `get_method_group` — a
`<heading_type>.method` child flushes and starts a new member, a
`div.docblock` flushes with a description. -/
def methodGroupLoop (parent : Name) (ty : ItemType) (htag : Str) :
    List HtmlNode → Option Str → Option Str → List Doc
  | [], _, _ => []
  | el :: rest, name, defn =>
    if el.is_element htag && el.hasCls "method".toList then
      mdPush parent ty name defn none ++
        methodGroupLoop parent ty htag rest (get_id_part_node el 1)
          (childCodeText el)
    else if el.is_element "div".toList && el.hasCls "docblock".toList then
      mdPush parent ty name defn (some (node_to_text el)) ++
        methodGroupLoop parent ty htag rest none none
    else methodGroupLoop parent ty htag rest name defn

/-- `parser.rs`: `get_method_group` — walk the `impl-items` children and
filter out an empty harvest. -/
def get_method_group (parent : Name) (title : Option Str)
    (impl_items : HtmlNode) (ty : ItemType) (htag : Str) :
    Option MemberGroup :=
  into_member_group title
    (methodGroupLoop parent ty htag impl_items.childrenOf none none)

/-- The subheading loop of `parser.rs`: `get_method_groups` — alternating
`h3.impl` subheadings and `div.impl-items` blocks. -/
def methodGroupsLoop (parent : Name) (ty : ItemType) (htag : Str) :
    List HtmlNode → List MemberGroup
  | [] => []
  | sub :: rest =>
    if sub.is_element "h3".toList && sub.hasCls "impl".toList then
      match sub.firstChild with
      | none => []
      | some title_el =>
        match rest with
        | [] => []
        | impl_items :: rest2 =>
          if impl_items.is_element "div".toList &&
              impl_items.hasCls "impl-items".toList then
            (get_method_group parent (some (text_contents title_el))
              impl_items ty htag).toList ++
              methodGroupsLoop parent ty htag rest2
          else methodGroupsLoop parent ty htag (impl_items :: rest2)
    else []

/-- `parser.rs`: `get_method_groups`. -/
def get_method_groups (document : HtmlNode) (parent : Name) (hid : Str)
    (ty : ItemType) (htag : Str) : List MemberGroup :=
  match findByIdIn hid document with
  | some (_, sibs) => methodGroupsLoop parent ty htag (dropToElem sibs)
  | none => []

/-- `parser.rs`: `get_methods` — the pre-1.45 and post-1.45 heading ids,
deref-provided methods, and the required/provided sections of traits. -/
def get_methods (document : HtmlNode) (parent : Name) :
    ItemType × List MemberGroup :=
  let g1 := get_method_groups document parent "methods".toList .Method
    "h4".toList
  let g2 := get_method_groups document parent "implementations".toList
    .Method "h4".toList
  let gderef :=
    match findByIdIn "deref-methods".toList document with
    | some (h, s :: _) =>
      (get_method_group parent (some (text_contents h)) s .Method
        "h4".toList).toList
    | _ => []
  let greq :=
    match findByIdIn "required-methods".toList document with
    | some (_, s :: _) =>
      (get_method_group parent (some "Required Methods".toList) s .TyMethod
        "h3".toList).toList
    | _ => []
  let gprov :=
    match findByIdIn "provided-methods".toList document with
    | some (_, s :: _) =>
      (get_method_group parent (some "Provided Methods".toList) s .TyMethod
        "h3".toList).toList
    | _ => []
  (.Method, g1 ++ g2 ++ gderef ++ greq ++ gprov)

/-- `parser.rs`: `get_assoc_types`. -/
def get_assoc_types (document : HtmlNode) (parent : Name) :
    ItemType × List MemberGroup :=
  match findByIdIn "associated-types".toList document with
  | some (_, s :: _) =>
    (.AssocType,
      (get_method_group parent none s .AssocType "h3".toList).toList)
  | _ => (.AssocType, [])

/-- First descendant with the given tag (`select_first(node, "a")`). -/
def findFirstTag (tag : Str) (n : HtmlNode) : Option HtmlNode :=
  findFirstBy (fun m => m.is_element tag) n

/-- The item loop of `parser.rs`: `get_implementation_group` — each
`h3.impl` child yields one member named by the first `a` descendant of its
first (code) child. -/
def implGroupLoop (parent : Name) : List HtmlNode → List Doc
  | [] => []
  | item :: rest =>
    if item.is_element "h3".toList && item.hasCls "impl".toList then
      let code := item.firstChild
      let a := code.bind (findFirstTag "a".toList)
      mdPush parent .Impl (a.map text_contents) (code.map node_to_text) none
        ++ implGroupLoop parent rest
    else implGroupLoop parent rest

/-- The derived `(name, definition)` comparison used by `MemberDocs::sort`. -/
def docLeProp (a b : Doc) : Prop :=
  ((decide (a.docName.s < b.docName.s) ||
      (a.docName == b.docName &&
        (match a.definition, b.definition with
         | none, _ => true
         | some _, none => false
         | some x, some y => decide (x ≤ y)))) : Bool) = true

instance : DecidableRel docLeProp := fun a b => by
  unfold docLeProp
  infer_instance

/-- `parser.rs`: `get_implementation_group` — collect, sort, and filter out
an empty group. -/
def get_implementation_group (document : HtmlNode) (parent : Name)
    (title : Str) (lid : Str) : Option MemberGroup :=
  let docs :=
    match findByIdIn lid document with
    | some (d, _) => implGroupLoop parent d.childrenOf
    | none => []
  into_member_group (some title) (List.insertionSort docLeProp docs)

/-- `parser.rs`: `get_implementations` — the four historical list ids. -/
def get_implementations (document : HtmlNode) (parent : Name) :
    ItemType × List MemberGroup :=
  let gd : List (Str × Str) :=
    [("Trait Implementations".toList, "implementations-list".toList),
     ("Trait Implementations".toList, "trait-implementations-list".toList),
     ("Auto Trait Implementations".toList,
      "synthetic-implementations-list".toList),
     ("Blanket Implementations".toList,
      "blanket-implementations-list".toList)]
  (.Impl, gd.filterMap (fun td =>
    get_implementation_group document parent td.1 td.2))

/-- The type-specific definition selector of `parser.rs`:
`parse_item_doc`. -/
def definitionSelector (document : HtmlNode) (ty : ItemType) :
    Option HtmlNode :=
  match ty with
  | .Constant => findFirstBy (fun n =>
      n.is_element "pre".toList && n.hasCls "const".toList) document
  | .Function => findFirstBy (fun n =>
      n.is_element "pre".toList && n.hasCls "fn".toList) document
  | .Typedef => findFirstBy (fun n =>
      n.is_element "pre".toList && n.hasCls "typedef".toList) document
  | _ => findFirstBy (fun n =>
      n.hasCls "docblock".toList && n.hasCls "type-decl".toList) document

/-- `select_first(document, "#main > .docblock:not(.type-decl)")`. -/
def mainDescription (document : HtmlNode) : Option HtmlNode :=
  match findByIdIn "main".toList document with
  | some (m, _) =>
    (m.childrenOf.filter (fun c => c.isElemNode &&
      c.hasCls "docblock".toList && !c.hasCls "type-decl".toList)).head?
  | none => none

/-- `parser.rs`: `Parser::parse_item_doc` — definition, description, then the
five member sub-extractions, attaching only the non-empty group lists. -/
def Parser.parse_item_doc (document : HtmlNode) (name : Name)
    (ty : ItemType) : Doc :=
  let definition := definitionSelector document ty
  let description := mainDescription document
  let members := [get_variants document name, get_fields document name,
    get_assoc_types document name, get_methods document name,
    get_implementations document name]
  Doc.mk name ty (description.map node_to_text) (definition.map node_to_text)
    (members.filter (fun e => !e.2.isEmpty))

mutual

/-- The selector `td:first-child > :first-child` of `parser.rs`:
`get_members` — for each descendant `td` that is the first element child of
its parent, its first element child, paired with the raw next sibling of
the `td` (the description cell). -/
def tdPairsNode : HtmlNode → List (HtmlNode × Option HtmlNode)
  | .text _ => []
  | .elem _ _ cs =>
    (match dropToElem cs with
     | td :: rest =>
       if td.is_element "td".toList then
         match dropToElem td.childrenOf with
         | item :: _ => [(item, rest.head?)]
         | [] => []
       else []
     | [] => []) ++ tdPairsList cs

/-- Companion of `tdPairsNode` over a child list. -/
def tdPairsList : List HtmlNode → List (HtmlNode × Option HtmlNode)
  | [] => []
  | c :: cs => tdPairsNode c ++ tdPairsList cs

end

/-- `parser.rs`: `get_members` — the `#<group-id> + table` member table of a
module page, one `Doc` per first-cell entry. -/
def get_members (document : HtmlNode) (parent : Name) (ty : ItemType) :
    List Doc :=
  match findByIdIn (ItemType.group_id ty) document with
  | some (_, sibs) =>
    match dropToElem sibs with
    | table :: _ =>
      if table.is_element "table".toList then
        (tdPairsNode table).map (fun p =>
          Doc.mk (parent.child (text_contents p.1)) ty
            (p.2.map node_to_text) none [])
      else []
    | [] => []
  | none => []

/-- `parser.rs`: `MODULE_MEMBER_TYPES`. -/
def MODULE_MEMBER_TYPES : List ItemType :=
  [.ExternCrate, .Import, .Primitive, .Module, .Macro, .Struct, .Enum,
   .Constant, .Static, .Trait, .Function, .Typedef, .Union]

/-- `parser.rs`: `Parser::parse_module_doc` — one singleton member group per
module member type, attached only when members of that type were found. -/
def Parser.parse_module_doc (document : HtmlNode) (name : Name) : Doc :=
  let description := findFirstBy (fun n => n.hasCls "docblock".toList)
    document
  Doc.mk name .Module (description.map node_to_text) none
    (MODULE_MEMBER_TYPES.filterMap (fun ty =>
      let ms := get_members document name ty
      if ms.isEmpty then none else some (ty, [(none, ms)])))

/-- Every member group in the list has at least one member. -/
def allGroupsNonempty (gs : List MemberGroup) : Prop :=
  ∀ g ∈ gs, g.2 ≠ []

/-- The C8 invariant on a `Doc`'s `groups` field: every attached entry has a
non-empty group list, and every group in it has at least one member. -/
def groupsWellFormed (gs : List (ItemType × List MemberGroup)) : Prop :=
  ∀ e ∈ gs, e.2 ≠ [] ∧ ∀ g ∈ e.2, g.2 ≠ []

theorem into_member_group_sound (title : Option Str) (docs : List Doc)
    (g : MemberGroup) (h : into_member_group title docs = some g) :
    g.2 ≠ [] := by
  unfold into_member_group at h
  split at h
  · exact Option.noConfusion h
  · next hne =>
    cases h
    simpa using hne

theorem allGroupsNonempty_nil : allGroupsNonempty [] := by
  intro g hg
  cases hg

theorem allGroupsNonempty_append (xs ys : List MemberGroup)
    (hx : allGroupsNonempty xs) (hy : allGroupsNonempty ys) :
    allGroupsNonempty (xs ++ ys) := by
  intro g hg
  rcases List.mem_append.mp hg with h | h
  exacts [hx g h, hy g h]

theorem allGroupsNonempty_toList (title : Option Str) (docs : List Doc) :
    allGroupsNonempty (into_member_group title docs).toList := by
  intro g hg
  exact into_member_group_sound title docs g
    (Option.mem_def.mp (Option.mem_toList.mp hg))

theorem allGroupsNonempty_into_member_groups (title : Option Str)
    (docs : List Doc) : allGroupsNonempty (into_member_groups title docs) :=
  allGroupsNonempty_toList title docs

theorem allGroupsNonempty_method_group (parent : Name) (title : Option Str)
    (impl_items : HtmlNode) (ty : ItemType) (htag : Str) :
    allGroupsNonempty (get_method_group parent title impl_items ty
      htag).toList :=
  allGroupsNonempty_toList title _

theorem methodGroupsLoop_nonempty (parent : Name) (ty : ItemType)
    (htag : Str) (l : List HtmlNode) :
    allGroupsNonempty (methodGroupsLoop parent ty htag l) := by
  induction l using methodGroupsLoop.induct parent ty htag with
  | case1 =>
    rw [methodGroupsLoop]
    exact allGroupsNonempty_nil
  | case2 sub rest hA hFc =>
    rw [methodGroupsLoop]
    simp only [hA, hFc, eq_self_iff_true, if_true]
    exact allGroupsNonempty_nil
  | case3 sub hA title_el hFc =>
    rw [methodGroupsLoop]
    simp only [hA, hFc, eq_self_iff_true, if_true]
    exact allGroupsNonempty_nil
  | case4 sub hA title_el hFc impl_items rest2 hB ih =>
    rw [methodGroupsLoop]
    simp only [hA, hFc, hB, eq_self_iff_true, if_true]
    exact allGroupsNonempty_append _ _
      (allGroupsNonempty_method_group parent (some (text_contents title_el))
        impl_items ty htag) ih
  | case5 sub hA title_el hFc impl_items rest2 hB ih =>
    rw [methodGroupsLoop]
    simp only [hA, hFc, hB, eq_self_iff_true, if_true, if_false]
    exact ih
  | case6 sub rest hB =>
    rw [methodGroupsLoop]
    simp only [hB, if_false]
    exact allGroupsNonempty_nil

theorem get_method_groups_nonempty (document : HtmlNode) (parent : Name)
    (hid : Str) (ty : ItemType) (htag : Str) :
    allGroupsNonempty (get_method_groups document parent hid ty htag) := by
  unfold get_method_groups
  split
  · exact methodGroupsLoop_nonempty parent ty htag _
  · exact allGroupsNonempty_nil

theorem get_variants_nonempty (document : HtmlNode) (parent : Name) :
    allGroupsNonempty (get_variants document parent).2 :=
  allGroupsNonempty_into_member_groups none _

theorem get_fields_nonempty (document : HtmlNode) (parent : Name) :
    allGroupsNonempty (get_fields document parent).2 :=
  allGroupsNonempty_into_member_groups none _

theorem get_assoc_types_nonempty (document : HtmlNode) (parent : Name) :
    allGroupsNonempty (get_assoc_types document parent).2 := by
  unfold get_assoc_types
  split
  · exact allGroupsNonempty_method_group parent none _ .AssocType _
  · exact allGroupsNonempty_nil

theorem get_methods_nonempty (document : HtmlNode) (parent : Name) :
    allGroupsNonempty (get_methods document parent).2 := by
  unfold get_methods
  apply allGroupsNonempty_append
  apply allGroupsNonempty_append
  apply allGroupsNonempty_append
  apply allGroupsNonempty_append
  · exact get_method_groups_nonempty document parent _ .Method _
  · exact get_method_groups_nonempty document parent _ .Method _
  · split
    · exact allGroupsNonempty_method_group parent _ _ .Method _
    · exact allGroupsNonempty_nil
  · split
    · exact allGroupsNonempty_method_group parent _ _ .TyMethod _
    · exact allGroupsNonempty_nil
  · split
    · exact allGroupsNonempty_method_group parent _ _ .TyMethod _
    · exact allGroupsNonempty_nil

theorem get_implementations_nonempty (document : HtmlNode) (parent : Name) :
    allGroupsNonempty (get_implementations document parent).2 := by
  intro g hg
  unfold get_implementations at hg
  simp only [List.mem_filterMap] at hg
  obtain ⟨td, _, h⟩ := hg
  unfold get_implementation_group at h
  exact into_member_group_sound _ _ _ h

theorem parse_item_doc_wf (document : HtmlNode) (name : Name)
    (ty : ItemType) :
    groupsWellFormed (Parser.parse_item_doc document name ty).groups := by
  intro e he
  have he2 : e ∈ ([get_variants document name, get_fields document name,
      get_assoc_types document name, get_methods document name,
      get_implementations document name].filter
        (fun e => !e.2.isEmpty)) := he
  rw [List.mem_filter] at he2
  obtain ⟨hm, hp⟩ := he2
  refine ⟨by simpa using hp, ?_⟩
  simp only [List.mem_cons, List.not_mem_nil, or_false] at hm
  rcases hm with h | h | h | h | h
  · exact h ▸ get_variants_nonempty document name
  · exact h ▸ get_fields_nonempty document name
  · exact h ▸ get_assoc_types_nonempty document name
  · exact h ▸ get_methods_nonempty document name
  · exact h ▸ get_implementations_nonempty document name

theorem parse_module_doc_wf (document : HtmlNode) (name : Name) :
    groupsWellFormed (Parser.parse_module_doc document name).groups := by
  intro e he
  have he2 : e ∈ MODULE_MEMBER_TYPES.filterMap (fun ty =>
      let ms := get_members document name ty
      if ms.isEmpty then none else some (ty, [(none, ms)])) := he
  rw [List.mem_filterMap] at he2
  obtain ⟨ty, _, h⟩ := he2
  simp only at h
  split at h
  · exact Option.noConfusion h
  · next hne =>
    cases h
    refine ⟨by simp, ?_⟩
    intro g hg
    rcases List.mem_singleton.mp hg with rfl
    simpa using hne

/-- C8: every `Doc` produced by the item-page scraper
(`Parser.parse_item_doc`) or the module-page scraper
(`Parser.parse_module_doc`) has well-formed groups: each
`(ItemType, group-list)` entry carries a non-empty group list, and every
member group in it has at least one member — a type with no members found
is omitted entirely rather than attached with an empty list. -/
theorem scraper_groups_invariant :
    (∀ (document : HtmlNode) (name : Name) (ty : ItemType),
      groupsWellFormed (Parser.parse_item_doc document name ty).groups) ∧
    (∀ (document : HtmlNode) (name : Name),
      groupsWellFormed (Parser.parse_module_doc document name).groups) :=
  ⟨parse_item_doc_wf, parse_module_doc_wf⟩
